import Mathlib

/-!
Verification of the mollama chat application's non-UI logic.

The development shallowly embeds, over `List Char` / `String`:
* the response-cleanup chain `cleanResponse` of `src/llama/llama.config.ts`
  (a fixed chain of JavaScript `String.replace` calls with regex patterns,
  modelled replace-by-replace with single-pass, leftmost, non-overlapping
  semantics, lazy `.*?` spans and the `s`/`i` flags where the source has them);
* the `sendMessage` wrapper result;
* the prompt assembly and streaming-state transition of
  `src/components/Chat.tsx` (`createCompletion`, `generateId`);
* the model-provisioning flow `downloadModel` of the multi-model app variant;
* the download-progress computations of `modelDownloader.ts` and the app.

Character classes follow the JavaScript regex semantics for the code points
that occur in the source patterns; `\s`, `.` (without the `s` flag) and
`String.prototype.trim` are modelled on the usual code points.
-/

namespace Mollama

set_option maxRecDepth 2000000

/-- JavaScript `\s` / `trim` whitespace (the code points relevant here). -/
def isWsJS (c : Char) : Bool :=
  c = ' ' || c = '\t' || c = '\n' || c = '\r' ||
  c = '\x0b' || c = '\x0c' || c.toNat = 0xa0 || c.toNat = 0xfeff ||
  c.toNat = 0x2028 || c.toNat = 0x2029

/-- JavaScript line terminators: code points not matched by `.` without the `s` flag. -/
def isLineTerm (c : Char) : Bool :=
  c = '\n' || c = '\r' || c.toNat = 0x2028 || c.toNat = 0x2029

/-- Horizontal whitespace, the character class `[ \t]`. -/
def isHW (c : Char) : Bool :=
  c = ' ' || c = '\t'

/-- First occurrence of `pat` in a list: returns the part before the match and
the part after it (the match itself consumed).  `none` when `pat` does not
occur.  For nonempty `pat` this is exactly the leftmost-match search of a
JavaScript regex made of literal characters. -/
def findSplit (pat : List Char) : List Char → Option (List Char × List Char)
  | [] => none
  | c :: rest =>
    if pat.isPrefixOf (c :: rest) then
      some ([], (c :: rest).drop pat.length)
    else
      match findSplit pat rest with
      | some (pre, post) => some (c :: pre, post)
      | none => none

/-- Case-insensitive prefix test (JavaScript regex `i` flag, `toLowerCase` folding). -/
def isPrefixOfCI : List Char → List Char → Bool
  | [], _ => true
  | _ :: _, [] => false
  | a :: as, b :: bs => (a.toLower == b.toLower) && isPrefixOfCI as bs

/-- Case-insensitive variant of `findSplit`. -/
def findSplitCI (pat : List Char) : List Char → Option (List Char × List Char)
  | [] => none
  | c :: rest =>
    if isPrefixOfCI pat (c :: rest) then
      some ([], (c :: rest).drop pat.length)
    else
      match findSplitCI pat rest with
      | some (pre, post) => some (c :: pre, post)
      | none => none

theorem isPrefixOf_exists {p l : List Char} (h : p.isPrefixOf l = true) :
    ∃ t, p ++ t = l := by
  induction p generalizing l with
  | nil => exact ⟨l, rfl⟩
  | cons a as ih =>
    cases l with
    | nil => simp [List.isPrefixOf] at h
    | cons b bs =>
      simp only [List.isPrefixOf, Bool.and_eq_true, beq_iff_eq] at h
      obtain ⟨t, ht⟩ := ih h.2
      exact ⟨t, by simp [h.1, ht]⟩

theorem isPrefixOfCI_length {p l : List Char} (h : isPrefixOfCI p l = true) :
    p.length ≤ l.length := by
  induction p generalizing l with
  | nil => simp
  | cons a as ih =>
    cases l with
    | nil => simp [isPrefixOfCI] at h
    | cons b bs =>
      simp only [isPrefixOfCI, Bool.and_eq_true] at h
      simpa using Nat.succ_le_succ (ih h.2)

theorem findSplit_eq {pat l pre post : List Char}
    (h : findSplit pat l = some (pre, post)) : l = pre ++ pat ++ post := by
  induction l generalizing pre with
  | nil => simp [findSplit] at h
  | cons c rest ih =>
    rw [findSplit] at h
    split at h
    · next hp =>
      obtain ⟨t, ht⟩ := isPrefixOf_exists hp
      obtain ⟨h1, h2⟩ := Prod.mk.injEq .. ▸ Option.some.injEq .. ▸ h
      subst h1
      have : (c :: rest).drop pat.length = t := by
        rw [← ht, List.drop_left]
      rw [← h2, this, ← ht]
      simp
    · revert h
      match hf : findSplit pat rest with
      | some (pre', post') =>
        intro h
        obtain ⟨h1, h2⟩ := Prod.mk.injEq .. ▸ Option.some.injEq .. ▸ h
        subst h2
        rw [← h1]
        simp [ih hf]
      | none => intro h; simp at h

theorem findSplit_length {pat l pre post : List Char}
    (h : findSplit pat l = some (pre, post)) :
    pre.length + pat.length + post.length = l.length := by
  have := findSplit_eq h
  subst this
  simp only [List.length_append]

theorem findSplitCI_length {pat l pre post : List Char}
    (h : findSplitCI pat l = some (pre, post)) :
    pre.length + pat.length ≤ l.length ∧ post.length + pat.length + pre.length = l.length := by
  induction l generalizing pre with
  | nil => simp [findSplitCI] at h
  | cons c rest ih =>
    rw [findSplitCI] at h
    split at h
    · next hp =>
      have hlen := isPrefixOfCI_length hp
      obtain ⟨h1, h2⟩ := Prod.mk.injEq .. ▸ Option.some.injEq .. ▸ h
      subst h1
      rw [← h2]
      simp only [List.length_cons] at hlen
      simp only [List.length_nil, List.length_drop, List.length_cons]
      omega
    · revert h
      match hf : findSplitCI pat rest with
      | some (pre', post') =>
        intro h
        obtain ⟨h1, h2⟩ := Prod.mk.injEq .. ▸ Option.some.injEq .. ▸ h
        subst h2
        have := ih hf
        rw [← h1]
        simp only [List.length_cons]
        omega
      | none => intro h; simp at h

/-! ### The `cleanResponse` replace chain (`src/llama/llama.config.ts`, lines 28–46) -/

def openThink : List Char := ['<', 't', 'h', 'i', 'n', 'k', '>']

def closeThink : List Char := ['<', '/', 't', 'h', 'i', 'n', 'k', '>']

/-!
Each single-pass `replace` below is one scan over the string: at every
position a step function yields the output emitted there and the remainder
the scan continues at (the character itself and the tail when nothing
matches; the replacement and the suffix after the match when a match starts
here — exactly the `lastIndex` advance of a JavaScript global regex).  The
driver is structurally recursive on a fuel argument so that it computes
inside the kernel; the fuel only needs to dominate the list length, since
every step consumes at least one character.
-/

/-- Fuel-indexed scan driver. -/
def scanF (step : Char → List Char → List Char × List Char) :
    Nat → List Char → List Char
  | _, [] => []
  | 0, c :: rest => c :: rest
  | fuel + 1, c :: rest => (step c rest).1 ++ scanF step fuel (step c rest).2

/-- A step never grows the remainder (true of every replace step below). -/
def Shrinking (step : Char → List Char → List Char × List Char) : Prop :=
  ∀ c rest, (step c rest).2.length ≤ rest.length

/-- Single-pass scan with the list length as fuel. -/
def scan (step : Char → List Char → List Char × List Char) (l : List Char) :
    List Char :=
  scanF step l.length l

theorem scanF_congr {step} (hs : Shrinking step) :
    ∀ (fuel fuel' : Nat) {l : List Char}, l.length ≤ fuel → l.length ≤ fuel' →
      scanF step fuel l = scanF step fuel' l := by
  intro fuel
  induction fuel with
  | zero =>
    intro fuel' l h _
    have hl : l = [] := List.eq_nil_of_length_eq_zero (Nat.le_zero.mp h)
    subst hl
    cases fuel' <;> rfl
  | succ fuel ih =>
    intro fuel' l h h'
    cases l with
    | nil => cases fuel' <;> rfl
    | cons c rest =>
      cases fuel' with
      | zero => simp at h'
      | succ fuel'' =>
        rw [scanF, scanF]
        have hr := hs c rest
        simp only [List.length_cons] at h h'
        rw [ih fuel'' (by omega) (by omega)]

theorem scan_cons {step} (hs : Shrinking step) (c : Char) (rest : List Char) :
    scan step (c :: rest) = (step c rest).1 ++ scan step ((step c rest).2) := by
  rw [scan, List.length_cons, scanF,
    scanF_congr hs rest.length ((step c rest).2.length) (hs c rest) (Nat.le_refl _)]
  rfl

/-- A scan whose step copies every character other than `bad` is the identity
on lists not containing `bad`. -/
theorem scan_id {step} (hs : Shrinking step) (bad : Char)
    (hstep : ∀ c rest, c ≠ bad → step c rest = ([c], rest)) :
    ∀ {l : List Char}, bad ∉ l → scan step l = l := by
  intro l
  induction l with
  | nil => intro _; rfl
  | cons c rest ih =>
    intro hb
    rw [scan_cons hs, hstep c rest (fun hc => hb (hc ▸ List.mem_cons_self c rest))]
    exact congrArg (c :: ·) (ih (fun hm => hb (List.mem_cons_of_mem _ hm)))

/-- Step of `text.replace(/<think>(.*?)<\/think>/gs, (match, thinkingContent) => ...)`:
a lazy span match starting here is rewritten to its first 200 inner characters
plus `...`, still wrapped in the tag, when the inner content exceeds 200
characters, and kept as the whole match otherwise. -/
def limitThinkStep (c : Char) (rest : List Char) : List Char × List Char :=
  if openThink.isPrefixOf (c :: rest) then
    match findSplit closeThink ((c :: rest).drop openThink.length) with
    | some (inner, post) =>
      ((if 200 < inner.length then
          openThink ++ inner.take 200 ++ ['.', '.', '.'] ++ closeThink
        else openThink ++ inner ++ closeThink), post)
    | none => ([c], rest)
  else ([c], rest)

def limitThink : List Char → List Char :=
  scan limitThinkStep

/-- Step of `.replace(/<think>.*?<\/think>/gs, '')` — a matched think span is
removed together with its content. -/
def removeThinkStep (c : Char) (rest : List Char) : List Char × List Char :=
  if openThink.isPrefixOf (c :: rest) then
    match findSplit closeThink ((c :: rest).drop openThink.length) with
    | some (_, post) => ([], post)
    | none => ([c], rest)
  else ([c], rest)

def removeThink : List Char → List Char :=
  scan removeThinkStep

def redactedTok : List Char :=
  ['R', 'E', 'D', 'A', 'C', 'T', 'E', 'D', '_', 'S', 'P', 'E', 'C', 'I', 'A', 'L',
   '_', 'T', 'O', 'K', 'E', 'N']

/-- Step of `.replace(/REDACTED_SPECIAL_TOKEN/g, '')`. -/
def removeRedactedStep (c : Char) (rest : List Char) : List Char × List Char :=
  if redactedTok.isPrefixOf (c :: rest) then
    ([], (c :: rest).drop redactedTok.length)
  else ([c], rest)

def removeRedacted : List Char → List Char :=
  scan removeRedactedStep

/-- Step of `.replace(/<\|.*?\|>/g, '')` — no `s` flag, so the lazy dots cannot
cross a line terminator. -/
def removeSpecialTokStep (c : Char) (rest : List Char) : List Char × List Char :=
  if ['<', '|'].isPrefixOf (c :: rest) then
    match findSplit ['|', '>'] (((c :: rest).drop 2).takeWhile fun x => !isLineTerm x) with
    | some (inner, _) => ([], (c :: rest).drop (2 + inner.length + 2))
    | none => ([c], rest)
  else ([c], rest)

def removeSpecialTok : List Char → List Char :=
  scan removeSpecialTokStep

/-- The literal (fullwidth-bar) pattern of `.replace(/< \｜end_of_sentence\｜>/gi, '')`. -/
def eosTok : List Char :=
  ['<', ' ', '｜', 'e', 'n', 'd', '_', 'o', 'f', '_', 's', 'e', 'n', 't', 'e', 'n',
   'c', 'e', '｜', '>']

/-- Step of `.replace(/< \｜end_of_sentence\｜>/gi, '')` — a case-insensitive
literal. -/
def removeEOSStep (c : Char) (rest : List Char) : List Char × List Char :=
  if isPrefixOfCI eosTok (c :: rest) then
    ([], (c :: rest).drop eosTok.length)
  else ([c], rest)

def removeEOS : List Char → List Char :=
  scan removeEOSStep

/-- Step of `.replace(/<\｜.*?end.*?\｜>/gi, '')` — a fullwidth-bar delimited
span that must contain `end` (case-insensitively); no `s` flag, and with both
lazy dot groups minimal: the match ends at the first `｜>` after the first
case-insensitive `end`, all before any line terminator. -/
def removeEndTokStep (c : Char) (rest : List Char) : List Char × List Char :=
  if ['<', '｜'].isPrefixOf (c :: rest) then
    match findSplitCI ['e', 'n', 'd'] (((c :: rest).drop 2).takeWhile fun x => !isLineTerm x) with
    | some (pre1, rest1) =>
      match findSplit ['｜', '>'] rest1 with
      | some (pre2, _) =>
        ([], (c :: rest).drop (2 + pre1.length + 3 + pre2.length + 2))
      | none => ([c], rest)
    | none => ([c], rest)
  else ([c], rest)

def removeEndTok : List Char → List Char :=
  scan removeEndTokStep

/-- Count of newlines in the leading whitespace run, and the suffix that starts
right after the last newline of that run (meaningful when the count is
positive). -/
def nlRunInfo : List Char → Nat × List Char
  | [] => (0, [])
  | c :: rest =>
    if isWsJS c then
      let p := nlRunInfo rest
      if c = '\n' then (p.1 + 1, if p.1 = 0 then rest else p.2)
      else p
    else (0, [])

theorem nlRunInfo_snd_length : ∀ l : List Char, 1 ≤ (nlRunInfo l).1 →
    (nlRunInfo l).2.length < l.length := by
  intro l
  induction l with
  | nil => simp [nlRunInfo]
  | cons c rest ih =>
    intro h
    rw [nlRunInfo] at h ⊢
    by_cases hw : isWsJS c
    · simp only [hw, if_true] at h ⊢
      by_cases hn : c = '\n'
      · simp only [hn, if_true] at h ⊢
        by_cases hz : (nlRunInfo rest).1 = 0
        · simp [hz]
        · have hr : 1 ≤ (nlRunInfo rest).1 := Nat.one_le_iff_ne_zero.mpr hz
          have := ih hr
          simp only [hz, if_false, List.length_cons]
          omega
      · simp only [hn, if_false] at h ⊢
        have := ih h
        simp only [List.length_cons]
        omega
    · simp [hw] at h

/-- Step of `.replace(/\n\s*\n\s*\n/g, '\n\n')`: a maximal whitespace run
containing at least three newlines is matched from its first through its last
newline (greedy `\s*`), and replaced by two newlines. -/
def collapseNewlinesStep (c : Char) (rest : List Char) : List Char × List Char :=
  if c = '\n' ∧ 3 ≤ (nlRunInfo (c :: rest)).1 then
    (['\n', '\n'], (nlRunInfo (c :: rest)).2)
  else ([c], rest)

def collapseNewlines : List Char → List Char :=
  scan collapseNewlinesStep

theorem length_dropWhile_le (p : Char → Bool) (l : List Char) :
    (l.dropWhile p).length ≤ l.length := by
  induction l with
  | nil => simp
  | cons c rest ih =>
    cases hp : p c <;> simp only [List.dropWhile, hp]
    · simp
    · exact Nat.le_succ_of_le ih

/-- Step of `.replace(/[ \t]+/g, ' ')`. -/
def collapseSpacesStep (c : Char) (rest : List Char) : List Char × List Char :=
  if isHW c then ([' '], rest.dropWhile isHW)
  else ([c], rest)

def collapseSpaces : List Char → List Char :=
  scan collapseSpacesStep

theorem limitThinkStep_shrink : Shrinking limitThinkStep := by
  intro c rest
  rw [limitThinkStep]
  split
  · split
    · next inner post heq =>
      have hl := findSplit_length heq
      simp only [List.length_drop, List.length_cons, openThink, closeThink,
        List.length_cons, List.length_nil] at hl
      simp only []
      omega
    · simp
  · simp

theorem removeThinkStep_shrink : Shrinking removeThinkStep := by
  intro c rest
  rw [removeThinkStep]
  split
  · split
    · next inner post heq =>
      have hl := findSplit_length heq
      simp only [List.length_drop, List.length_cons, openThink, closeThink,
        List.length_cons, List.length_nil] at hl
      simp only []
      omega
    · simp
  · simp

theorem removeRedactedStep_shrink : Shrinking removeRedactedStep := by
  intro c rest
  rw [removeRedactedStep]
  split
  · simp only [redactedTok, List.length_drop, List.length_cons]
    omega
  · simp

theorem removeSpecialTokStep_shrink : Shrinking removeSpecialTokStep := by
  intro c rest
  rw [removeSpecialTokStep]
  split
  · split
    · simp only [List.length_drop, List.length_cons]
      omega
    · simp
  · simp

theorem removeEOSStep_shrink : Shrinking removeEOSStep := by
  intro c rest
  rw [removeEOSStep]
  split
  · simp only [eosTok, List.length_drop, List.length_cons]
    omega
  · simp

theorem removeEndTokStep_shrink : Shrinking removeEndTokStep := by
  intro c rest
  rw [removeEndTokStep]
  split
  · split
    · split
      · simp only [List.length_drop, List.length_cons]
        omega
      · simp
    · simp
  · simp

theorem collapseNewlinesStep_shrink : Shrinking collapseNewlinesStep := by
  intro c rest
  rw [collapseNewlinesStep]
  split
  · next h =>
    have := nlRunInfo_snd_length (c :: rest) (by omega)
    simp only [List.length_cons] at this
    simp only []
    omega
  · simp

theorem collapseSpacesStep_shrink : Shrinking collapseSpacesStep := by
  intro c rest
  rw [collapseSpacesStep]
  split
  · exact length_dropWhile_le isHW rest
  · simp

/-- Remove the maximal all-whitespace suffix (the tail half of `trim()`). -/
def rTrim : List Char → List Char
  | [] => []
  | c :: rest =>
    let r := rTrim rest
    if r = [] && isWsJS c then [] else c :: r

/-- JavaScript `String.prototype.trim`. -/
def trimJS (l : List Char) : List Char :=
  rTrim (l.dropWhile isWsJS)

/-- The whole `cleanResponse` chain of `src/llama/llama.config.ts` on character
lists, in source order. -/
def cleanResponseL (l : List Char) : List Char :=
  trimJS (collapseSpaces (collapseNewlines (removeEndTok (removeEOS
    (removeSpecialTok (removeRedacted (removeThink (limitThink l))))))))

/-- `cleanResponse` on strings. -/
def cleanResponse (s : String) : String :=
  ⟨cleanResponseL s.data⟩

/-- The successful-return value of `sendMessage`
(`src/llama/llama.config.ts`, lines 89–92): `cleanResponse(...) || "No response generated"`
(a JavaScript `||` on strings falls through exactly on the empty string). -/
def sendMessageResult (finalText : String) : String :=
  let cleanedText := cleanResponse finalText
  if cleanedText = "" then ("No response generated") else cleanedText

/-! ### Chat component (`src/components/Chat.tsx`) -/

/-- JavaScript `String.prototype.trim` on strings. -/
def trimStr (s : String) : String :=
  ⟨trimJS s.data⟩

/-- JavaScript `String.prototype.toLowerCase` (ASCII case folding, the part
exercised by the `i`-flag regex of the greeting test). -/
def lowerStr (s : String) : String :=
  ⟨s.data.map Char.toLower⟩

/-- The message record of the chat screen (`interface Message`, lines 23–28);
the timestamp is abstracted to a number. -/
structure ChatMessage where
  id : String
  text : String
  isUser : Bool
  timestamp : Nat
deriving DecidableEq, Repr

/-- Decimal digits of `Number.prototype.toString` for a natural number. -/
def natDigits (n : Nat) : List Char :=
  if n < 10 then [Nat.digitChar n]
  else natDigits (n / 10) ++ [Nat.digitChar (n % 10)]
decreasing_by exact Nat.div_lt_self (by omega) (by omega)

/-- `generateId` (line 42): ``` `msg_${Date.now()}_${++messageIdCounter}` ```,
as a function of the clock reading and of the already-incremented counter
value used in the template. -/
def generateId (now counter : Nat) : String :=
  ⟨['m', 's', 'g', '_'] ++ natDigits now ++ '_' :: natDigits counter⟩

/-- The greeting allow-list of the regex `/^(hey|hello|hi|sup|yo|greetings)$/i`. -/
def greetingWords : List String :=
  ["hey", "hello", "hi", "sup", "yo", "greetings"]

/-- `/^(hey|hello|hi|sup|yo|greetings)$/i.test(message.trim())` (line 126): the
anchored, case-insensitive alternation holds exactly when the trimmed message
case-folds to one of the six words. -/
def isSimpleGreeting (message : String) : Bool :=
  greetingWords.any (fun w => lowerStr (trimStr message) == w)

/-- One line of the conversation history:
``` `${msg.isUser ? 'User' : 'Assistant'}: ${msg.text}` ``` (line 136). -/
def formatTurn (msg : ChatMessage) : String :=
  (if msg.isUser then ("User") else ("Assistant")) ++ (": ") ++ msg.text

/-- Prompt assembly of `createCompletion` (lines 125–139): greetings get the
system prompt plus the bare user line; everything else gets
`messages.slice(-4)` formatted and joined by newlines in between. -/
def createCompletionPrompt (systemPrompt : String) (messages : List ChatMessage)
    (message : String) : String :=
  if isSimpleGreeting message then
    systemPrompt ++ ("\n\nUser: ") ++ message
  else
    let recentMessages := messages.drop (messages.length - 4)
    let conversationHistory :=
      String.intercalate ("\n") (recentMessages.map formatTurn)
    systemPrompt ++ ("\n\n") ++ conversationHistory ++ ("\nUser: ") ++ message

/-- Outcome of the native `context.completion` call: the streamed tokens, and
either the final text or a thrown error (abstracted to its stringified
message). -/
inductive NativeOutcome where
  | ok (tokens : List String) (finalText : String)
  | err (tokens : List String) (message : String)

/-- The chat screen state touched by `createCompletion`. -/
structure ChatState where
  messages : List ChatMessage
  error : Option String
  isLoading : Bool
deriving DecidableEq, Repr

/-- The `setMessages` token callback (lines 154–166): `findIndex` on the
streaming id, then append the token to that message's text; the first match
only, and no change when the id is absent. -/
def appendTokenAt : List ChatMessage → String → String → List ChatMessage
  | [], _, _ => []
  | m :: rest, sid, tok =>
    if m.id = sid then { m with text := m.text ++ tok } :: rest
    else m :: appendTokenAt rest sid tok

/-- The final `setMessages` update (lines 171–181): replace the text of the
first message carrying the streaming id. -/
def setTextAt : List ChatMessage → String → String → List ChatMessage
  | [], _, _ => []
  | m :: rest, sid, t =>
    if m.id = sid then { m with text := t } :: rest
    else m :: setTextAt rest sid t

/-- All streamed tokens applied in arrival order. -/
def streamTokens (msgs : List ChatMessage) (sid : String) (tokens : List String) :
    List ChatMessage :=
  tokens.foldl (fun acc tok => appendTokenAt acc sid tok) msgs

/-- Result of one `createCompletion` run: the final screen state and the
function's return value (`none` models the `return null` of the catch arm). -/
structure CompletionResult where
  state : ChatState
  returned : Option String
deriving DecidableEq, Repr

/-- State transition of `createCompletion` (lines 120–193) given the streaming
message id and the native call's outcome.  The `response && response.trim()`
truthiness test is the test that both strings are nonempty; a thrown error is
abstracted to its stringified message, which is what `setError` stores. -/
def createCompletionStep (st : ChatState) (sid : String) (now : Nat)
    (outcome : NativeOutcome) : CompletionResult :=
  let withStreaming := st.messages ++ [⟨sid, "", false, now⟩]
  match outcome with
  | .err tokens e =>
    { state := { messages := streamTokens withStreaming sid tokens,
                 error := some e, isLoading := false },
      returned := none }
  | .ok tokens finalText =>
    let streamed := streamTokens withStreaming sid tokens
    let response := sendMessageResult finalText
    if response ≠ "" ∧ trimStr response ≠ "" then
      { state := { messages := setTextAt streamed sid response,
                   error := none, isLoading := false },
        returned := some response }
    else
      { state := { messages := streamed,
                   error := some ("Empty response from AI"), isLoading := false },
        returned := none }

/-! ### Model provisioning (`src/unnamed/part_006`, multi-model variant, lines 247–293) -/

inductive ProvisionAction where
  | getInfo | loadLocal | deleteLocal | download | loadDownloaded
deriving DecidableEq, Repr

/-- The environment a `downloadModel` run observes: whether the file exists,
what `loadModel` does on the local path, whether `deleteAsync` throws, the
`res?.uri` of `downloadAsync`, and what `loadModel` does on the downloaded
uri.  Inference contexts are abstracted to numbers, thrown errors to their
stringified messages. -/
structure ProvisionEnv where
  fileExists : Bool
  loadLocalResult : Except String Nat
  deleteThrows : Bool
  downloadUri : Option String
  loadDownloadedResult : Except String Nat

structure ProvisionResult where
  trace : List ProvisionAction
  context : Option Nat
  error : Option String
  loading : Bool
deriving DecidableEq, Repr

/-- The tail of `downloadModel` from `setStatus("Downloading model...")` on:
download, check `res?.uri`, load the downloaded file; every failure lands in
the outer catch as an error state. -/
def downloadAndLoad (env : ProvisionEnv) (tr : List ProvisionAction) :
    ProvisionResult :=
  match env.downloadUri with
  | none =>
    { trace := tr ++ [.download], context := none,
      error := some ("Download failed - no URI returned"), loading := false }
  | some _ =>
    match env.loadDownloadedResult with
    | .ok ctx =>
      { trace := tr ++ [.download, .loadDownloaded], context := some ctx,
        error := none, loading := false }
    | .error e =>
      { trace := tr ++ [.download, .loadDownloaded], context := none,
        error := some e, loading := false }

/-- `downloadModel` (lines 247–293): if the file exists, try to load it; on
success stop; on a load error, attempt `deleteAsync` (its own failure is
swallowed by the inner catch, so the flow continues either way) and fall
through to the download path. -/
def downloadModel (env : ProvisionEnv) : ProvisionResult :=
  if env.fileExists then
    match env.loadLocalResult with
    | .ok ctx =>
      { trace := [.getInfo, .loadLocal], context := some ctx,
        error := none, loading := false }
    | .error _ =>
      downloadAndLoad env [.getInfo, .loadLocal, .deleteLocal]
  else
    downloadAndLoad env [.getInfo]

/-! ### Download progress (`src/mollama/src/utils/modelDownloader.ts`, `src/unnamed/part_006`) -/

/-- `modelDownloader.ts` lines 118–121: the `createDownloadResumable` callback
computes `progress = totalBytesWritten / totalBytesExpectedToWrite` and hands
`progress * 100` to the registered `onProgress` callback. -/
def modelDownloaderProgressArg (written expected : ℚ) : ℚ :=
  (written / expected) * 100

/-- `part_006` lines 240–242: the same quotient is stored as-is by
`setDownloadProgress(progress)` (and formatted as a percentage only for the
status string). -/
def appProgressValue (written expected : ℚ) : ℚ :=
  written / expected

/-! ### Helper lemmas -/

theorem isSimpleGreeting_iff (message : String) :
    isSimpleGreeting message = true ↔ lowerStr (trimStr message) ∈ greetingWords := by
  simp only [isSimpleGreeting, List.any_eq_true, beq_iff_eq]
  constructor
  · rintro ⟨w, hw, rfl⟩
    exact hw
  · intro hw
    exact ⟨_, hw, rfl⟩

/-- Value of the decimal digit characters. -/
def digitsToNat (l : List Char) : Nat :=
  l.foldl (fun acc c => acc * 10 + (c.toNat - 48)) 0

theorem digitsToNat_append_digit (l : List Char) (c : Char) :
    digitsToNat (l ++ [c]) = digitsToNat l * 10 + (c.toNat - 48) := by
  simp [digitsToNat, List.foldl_append]

theorem digitChar_toNat : ∀ d, d < 10 → (Nat.digitChar d).toNat - 48 = d := by decide

theorem digitChar_ne_underscore : ∀ d, d < 10 → Nat.digitChar d ≠ '_' := by decide

theorem digitsToNat_natDigits : ∀ n : Nat, digitsToNat (natDigits n) = n := by
  intro n
  induction n using Nat.strong_induction_on with
  | _ n ih =>
    rw [natDigits]
    split
    · next h =>
      have hc := digitChar_toNat n h
      simp [digitsToNat, hc]
    · next h =>
      rw [digitsToNat_append_digit, ih (n / 10) (Nat.div_lt_self (by omega) (by omega)),
        digitChar_toNat (n % 10) (Nat.mod_lt _ (by omega))]
      omega

theorem natDigits_ne_underscore : ∀ n : Nat, '_' ∉ natDigits n := by
  intro n
  induction n using Nat.strong_induction_on with
  | _ n ih =>
    rw [natDigits]
    split
    · next h =>
      intro hmem
      exact digitChar_ne_underscore n h (List.mem_singleton.mp hmem).symm
    · next h =>
      intro hmem
      rcases List.mem_append.mp hmem with hmem | hmem
      · exact ih (n / 10) (Nat.div_lt_self (by omega) (by omega)) hmem
      · exact digitChar_ne_underscore (n % 10) (Nat.mod_lt _ (by omega))
          (List.mem_singleton.mp hmem).symm

theorem append_sep_inj {sep : Char} :
    ∀ {xs xs' ys ys' : List Char}, sep ∉ xs → sep ∉ xs' →
      xs ++ sep :: ys = xs' ++ sep :: ys' → xs = xs' ∧ ys = ys' := by
  intro xs
  induction xs with
  | nil =>
    intro xs' ys ys' _ h2 heq
    cases xs' with
    | nil => simpa using heq
    | cons a as =>
      simp only [List.nil_append, List.cons_append, List.cons.injEq] at heq
      exact absurd (heq.1 ▸ List.mem_cons_self a as) h2
  | cons x xt ih =>
    intro xs' ys ys' h1 h2 heq
    cases xs' with
    | nil =>
      simp only [List.nil_append, List.cons_append, List.cons.injEq] at heq
      exact absurd (heq.1 ▸ List.mem_cons_self x xt) h1
    | cons a as =>
      simp only [List.cons_append, List.cons.injEq] at heq
      have hta := ih (fun hm => h1 (List.mem_cons_of_mem _ hm))
        (fun hm => h2 (List.mem_cons_of_mem _ hm)) heq.2
      exact ⟨by rw [heq.1, hta.1], hta.2⟩

theorem isPrefixOf_append_self : ∀ (p t : List Char), p.isPrefixOf (p ++ t) = true := by
  intro p t
  induction p with
  | nil => simp [List.isPrefixOf]
  | cons a as ih => simp [List.isPrefixOf, ih]

theorem isPrefixOf_cons_head_ne {p : List Char} {hd c : Char} {rest : List Char}
    (h : c ≠ hd) : (hd :: p).isPrefixOf (c :: rest) = false := by
  simp only [List.isPrefixOf]
  rw [beq_eq_false_iff_ne.mpr (Ne.symm h), Bool.false_and]

theorem toNat_ofNat_of_valid {n : Nat} (h : n.isValidChar) :
    (Char.ofNat n).toNat = n := by
  rw [Char.ofNat, dif_pos h]
  rfl

/-- The only character whose JavaScript lower-casing is `<` is `<` itself. -/
theorem toLower_eq_angle {c : Char} (h : c.toLower = '<') : c = '<' := by
  simp only [Char.toLower] at h
  split at h
  · next hr =>
    exfalso
    have hv : (c.toNat + 32).isValidChar := by
      left
      omega
    have hn := congrArg Char.toNat h
    rw [toNat_ofNat_of_valid hv] at hn
    have h60 : ('<').toNat = 60 := by decide
    rw [h60] at hn
    omega
  · exact h

theorem isPrefixOfCI_angle_head {p : List Char} {c : Char} {rest : List Char}
    (hc : c ≠ '<') : isPrefixOfCI ('<' :: p) (c :: rest) = false := by
  simp only [isPrefixOfCI]
  have hne : (('<').toLower == c.toLower) = false := by
    refine beq_eq_false_iff_ne.mpr ?_
    intro hEq
    refine hc (toLower_eq_angle ?_)
    rw [← hEq]
    decide
  rw [hne, Bool.false_and]

/-- The lazy span search after an opening tag: with no `<` inside the span
content, the first `</think>` is the one closing the span. -/
theorem findSplit_closeThink (b t : List Char) (hb : '<' ∉ b) :
    findSplit closeThink (b ++ (closeThink ++ t)) = some (b, t) := by
  induction b with
  | nil =>
    rw [List.nil_append]
    rw [show closeThink ++ t = '<' :: ('/' :: 't' :: 'h' :: 'i' :: 'n' :: 'k' :: '>' :: t) from rfl]
    have hpre : closeThink.isPrefixOf
        ('<' :: ('/' :: 't' :: 'h' :: 'i' :: 'n' :: 'k' :: '>' :: t)) = true :=
      isPrefixOf_append_self closeThink t
    rw [findSplit, if_pos hpre]
    rfl
  | cons c b' ih =>
    have hc : c ≠ '<' := fun hcc => hb (hcc ▸ List.mem_cons_self c b')
    have hnp : closeThink.isPrefixOf (c :: (b' ++ (closeThink ++ t))) = false := by
      rw [show closeThink = '<' :: ['/', 't', 'h', 'i', 'n', 'k', '>'] from rfl]
      exact isPrefixOf_cons_head_ne hc
    rw [List.cons_append, findSplit, hnp]
    simp only [Bool.false_eq_true, if_false]
    rw [ih (fun hm => hb (List.mem_cons_of_mem _ hm))]

theorem limitThink_wrapped (b : List Char) (hb : '<' ∉ b) :
    limitThink (openThink ++ (b ++ closeThink))
      = openThink
          ++ ((if 200 < b.length then b.take 200 ++ ['.', '.', '.'] else b) ++ closeThink) := by
  have hpre : openThink.isPrefixOf
      ('<' :: 't' :: 'h' :: 'i' :: 'n' :: 'k' :: '>' :: (b ++ closeThink)) = true :=
    isPrefixOf_append_self openThink (b ++ closeThink)
  have hsp : findSplit closeThink
      (List.drop openThink.length
        ('<' :: 't' :: 'h' :: 'i' :: 'n' :: 'k' :: '>' :: (b ++ closeThink)))
      = some (b, []) := by
    have h0 := findSplit_closeThink b [] hb
    simpa [openThink] using h0
  have hstep : limitThinkStep '<' ('t' :: 'h' :: 'i' :: 'n' :: 'k' :: '>' :: (b ++ closeThink))
      = ((if 200 < b.length then openThink ++ b.take 200 ++ ['.', '.', '.'] ++ closeThink
          else openThink ++ b ++ closeThink), []) := by
    rw [limitThinkStep, if_pos hpre, hsp]
  rw [show openThink ++ (b ++ closeThink)
      = '<' :: ('t' :: 'h' :: 'i' :: 'n' :: 'k' :: '>' :: (b ++ closeThink)) from rfl]
  rw [show limitThink = scan limitThinkStep from rfl]
  rw [scan_cons limitThinkStep_shrink, hstep]
  show (if 200 < b.length then openThink ++ b.take 200 ++ ['.', '.', '.'] ++ closeThink
      else openThink ++ b ++ closeThink) ++ scan limitThinkStep [] = _
  rw [show scan limitThinkStep [] = [] from rfl, List.append_nil]
  split <;> simp [List.append_assoc]

theorem limitThinkStep_copy : ∀ (c : Char) (rest : List Char), c ≠ '<' →
    limitThinkStep c rest = ([c], rest) := by
  intro c rest hc
  rw [limitThinkStep, show openThink = '<' :: ['t', 'h', 'i', 'n', 'k', '>'] from rfl,
    isPrefixOf_cons_head_ne hc]
  simp

theorem removeThinkStep_copy : ∀ (c : Char) (rest : List Char), c ≠ '<' →
    removeThinkStep c rest = ([c], rest) := by
  intro c rest hc
  rw [removeThinkStep, show openThink = '<' :: ['t', 'h', 'i', 'n', 'k', '>'] from rfl,
    isPrefixOf_cons_head_ne hc]
  simp

theorem removeRedactedStep_copy : ∀ (c : Char) (rest : List Char), c ≠ 'R' →
    removeRedactedStep c rest = ([c], rest) := by
  intro c rest hc
  rw [removeRedactedStep,
    show redactedTok = 'R' :: ['E', 'D', 'A', 'C', 'T', 'E', 'D', '_', 'S', 'P', 'E',
      'C', 'I', 'A', 'L', '_', 'T', 'O', 'K', 'E', 'N'] from rfl,
    isPrefixOf_cons_head_ne hc]
  simp

theorem removeSpecialTokStep_copy : ∀ (c : Char) (rest : List Char), c ≠ '<' →
    removeSpecialTokStep c rest = ([c], rest) := by
  intro c rest hc
  rw [removeSpecialTokStep, isPrefixOf_cons_head_ne hc]
  simp

theorem removeEOSStep_copy : ∀ (c : Char) (rest : List Char), c ≠ '<' →
    removeEOSStep c rest = ([c], rest) := by
  intro c rest hc
  rw [removeEOSStep,
    show eosTok = '<' :: [' ', '｜', 'e', 'n', 'd', '_', 'o', 'f', '_', 's', 'e', 'n',
      't', 'e', 'n', 'c', 'e', '｜', '>'] from rfl,
    isPrefixOfCI_angle_head hc]
  simp

theorem removeEndTokStep_copy : ∀ (c : Char) (rest : List Char), c ≠ '<' →
    removeEndTokStep c rest = ([c], rest) := by
  intro c rest hc
  rw [removeEndTokStep, isPrefixOf_cons_head_ne hc]
  simp

theorem limitThink_id {l : List Char} (h : '<' ∉ l) : limitThink l = l :=
  scan_id limitThinkStep_shrink '<' limitThinkStep_copy h

theorem removeThink_id {l : List Char} (h : '<' ∉ l) : removeThink l = l :=
  scan_id removeThinkStep_shrink '<' removeThinkStep_copy h

theorem removeRedacted_id {l : List Char} (h : 'R' ∉ l) : removeRedacted l = l :=
  scan_id removeRedactedStep_shrink 'R' removeRedactedStep_copy h

theorem removeSpecialTok_id {l : List Char} (h : '<' ∉ l) : removeSpecialTok l = l :=
  scan_id removeSpecialTokStep_shrink '<' removeSpecialTokStep_copy h

theorem removeEOS_id {l : List Char} (h : '<' ∉ l) : removeEOS l = l :=
  scan_id removeEOSStep_shrink '<' removeEOSStep_copy h

theorem removeEndTok_id {l : List Char} (h : '<' ∉ l) : removeEndTok l = l :=
  scan_id removeEndTokStep_shrink '<' removeEndTokStep_copy h

theorem nlRunInfo_nonWs {c : Char} (rest : List Char) (h : isWsJS c = false) :
    nlRunInfo (c :: rest) = (0, []) := by
  rw [nlRunInfo]
  simp [h]

theorem nlRunInfo_hw {c : Char} (rest : List Char) (hw : isWsJS c = true) (hn : c ≠ '\n') :
    nlRunInfo (c :: rest) = nlRunInfo rest := by
  rw [nlRunInfo]
  simp [hw, hn]

theorem nlRunInfo_nl (rest : List Char) :
    nlRunInfo ('\n' :: rest)
      = ((nlRunInfo rest).1 + 1,
         if (nlRunInfo rest).1 = 0 then rest else (nlRunInfo rest).2) := by
  rw [nlRunInfo]
  simp [show isWsJS '\n' = true from by decide]

theorem nlRunInfo_after : ∀ l : List Char, 1 ≤ (nlRunInfo l).1 →
    (nlRunInfo (nlRunInfo l).2).1 = 0 := by
  intro l
  induction l with
  | nil => intro h; simp [nlRunInfo] at h
  | cons c rest ih =>
    intro h
    by_cases hw : isWsJS c = true
    · by_cases hn : c = '\n'
      · subst hn
        rw [nlRunInfo_nl]
        by_cases hz : (nlRunInfo rest).1 = 0
        · simp [hz]
        · simp only [hz, if_false]
          exact ih (by omega)
      · rw [nlRunInfo_hw rest hw hn] at h ⊢
        exact ih h
    · simp at hw
      rw [nlRunInfo_nonWs rest hw] at h
      simp at h

theorem nlRunInfo_snd_suffix : ∀ l : List Char, ∃ t, t ++ (nlRunInfo l).2 = l := by
  intro l
  induction l with
  | nil => exact ⟨[], rfl⟩
  | cons c rest ih =>
    by_cases hw : isWsJS c = true
    · by_cases hn : c = '\n'
      · subst hn
        rw [nlRunInfo_nl]
        by_cases hz : (nlRunInfo rest).1 = 0
        · exact ⟨['\n'], by simp [hz]⟩
        · obtain ⟨t, ht⟩ := ih
          exact ⟨'\n' :: t, by simp [hz, ht]⟩
      · rw [nlRunInfo_hw rest hw hn]
        obtain ⟨t, ht⟩ := ih
        exact ⟨c :: t, by simp [ht]⟩
    · simp at hw
      rw [nlRunInfo_nonWs rest hw]
      exact ⟨c :: rest, by simp⟩

theorem collapseNewlines_cons_match {c : Char} {rest : List Char}
    (h : c = '\n' ∧ 3 ≤ (nlRunInfo (c :: rest)).1) :
    collapseNewlines (c :: rest)
      = '\n' :: '\n' :: collapseNewlines (nlRunInfo (c :: rest)).2 := by
  rw [show collapseNewlines = scan collapseNewlinesStep from rfl,
    scan_cons collapseNewlinesStep_shrink,
    show collapseNewlinesStep c rest = (['\n', '\n'], (nlRunInfo (c :: rest)).2) from by
      rw [collapseNewlinesStep, if_pos h]]
  rfl

theorem collapseNewlines_cons_else {c : Char} {rest : List Char}
    (h : ¬(c = '\n' ∧ 3 ≤ (nlRunInfo (c :: rest)).1)) :
    collapseNewlines (c :: rest) = c :: collapseNewlines rest := by
  rw [show collapseNewlines = scan collapseNewlinesStep from rfl,
    scan_cons collapseNewlinesStep_shrink,
    show collapseNewlinesStep c rest = ([c], rest) from by
      rw [collapseNewlinesStep, if_neg h]]
  rfl

theorem collapseSpaces_cons_hw {c : Char} (rest : List Char) (h : isHW c = true) :
    collapseSpaces (c :: rest) = ' ' :: collapseSpaces (rest.dropWhile isHW) := by
  rw [show collapseSpaces = scan collapseSpacesStep from rfl,
    scan_cons collapseSpacesStep_shrink,
    show collapseSpacesStep c rest = ([' '], rest.dropWhile isHW) from by
      rw [collapseSpacesStep, if_pos h]]
  rfl

theorem collapseSpaces_cons_not {c : Char} (rest : List Char) (h : isHW c = false) :
    collapseSpaces (c :: rest) = c :: collapseSpaces rest := by
  rw [show collapseSpaces = scan collapseSpacesStep from rfl,
    scan_cons collapseSpacesStep_shrink,
    show collapseSpacesStep c rest = ([c], rest) from by
      rw [collapseSpacesStep, if_neg (by simp [h])]]
  rfl

/-- Some position of the list starts a `\n\s*\n\s*\n` match. -/
def hasNNN : List Char → Bool
  | [] => false
  | c :: rest =>
    (decide (c = '\n') && decide (3 ≤ (nlRunInfo (c :: rest)).1)) || hasNNN rest

theorem isHW_isWs {c : Char} (h : isHW c = true) : isWsJS c = true ∧ c ≠ '\n' := by
  have hor : c = ' ' ∨ c = '\t' := by simpa [isHW] using h
  rcases hor with rfl | rfl <;> exact ⟨by decide, by decide⟩

theorem removeThink_wrapped (b : List Char) (hb : '<' ∉ b) :
    removeThink (openThink ++ (b ++ closeThink)) = [] := by
  have hpre : openThink.isPrefixOf
      ('<' :: 't' :: 'h' :: 'i' :: 'n' :: 'k' :: '>' :: (b ++ closeThink)) = true :=
    isPrefixOf_append_self openThink (b ++ closeThink)
  have hsp : findSplit closeThink
      (List.drop openThink.length
        ('<' :: 't' :: 'h' :: 'i' :: 'n' :: 'k' :: '>' :: (b ++ closeThink)))
      = some (b, []) := by
    have h0 := findSplit_closeThink b [] hb
    simpa [openThink] using h0
  have hstep : removeThinkStep '<' ('t' :: 'h' :: 'i' :: 'n' :: 'k' :: '>' :: (b ++ closeThink))
      = ([], []) := by
    rw [removeThinkStep, if_pos hpre, hsp]
  rw [show openThink ++ (b ++ closeThink)
      = '<' :: ('t' :: 'h' :: 'i' :: 'n' :: 'k' :: '>' :: (b ++ closeThink)) from rfl]
  rw [show removeThink = scan removeThinkStep from rfl]
  rw [scan_cons removeThinkStep_shrink, hstep]
  rfl

theorem hasNNN_cons (c : Char) (rest : List Char) :
    hasNNN (c :: rest)
      = ((decide (c = '\n') && decide (3 ≤ (nlRunInfo (c :: rest)).1)) || hasNNN rest) := by
  rw [hasNNN]

theorem hasNNN_tail {c : Char} {rest : List Char} (h : hasNNN (c :: rest) = false) :
    hasNNN rest = false := by
  rw [hasNNN_cons] at h
  exact (Bool.or_eq_false_iff.mp h).2

theorem hasNNN_count_lt {rest : List Char} (h : hasNNN ('\n' :: rest) = false) :
    (nlRunInfo ('\n' :: rest)).1 < 3 := by
  rw [hasNNN_cons] at h
  have h1 := (Bool.or_eq_false_iff.mp h).1
  rw [show decide ('\n' = '\n') = true from rfl, Bool.true_and] at h1
  have := of_decide_eq_false h1
  omega

theorem hasNNN_dropWhile (p : Char → Bool) :
    ∀ {l : List Char}, hasNNN l = false → hasNNN (l.dropWhile p) = false := by
  intro l
  induction l with
  | nil => intro h; exact h
  | cons c rest ih =>
    intro h
    rw [List.dropWhile]
    cases hp : p c
    · exact h
    · exact ih (hasNNN_tail h)

theorem nlRunInfo_fst_mono : ∀ (X r : List Char), (∃ t, X ++ t = r) →
    (nlRunInfo X).1 ≤ (nlRunInfo r).1 := by
  intro X
  induction X with
  | nil => intro r _; simp [nlRunInfo]
  | cons x X' ih =>
    rintro r ⟨t, ht⟩
    subst ht
    by_cases hw : isWsJS x = true
    · by_cases hn : x = '\n'
      · subst hn
        rw [List.cons_append, nlRunInfo_nl, nlRunInfo_nl]
        have := ih (X' ++ t) ⟨t, rfl⟩
        dsimp only
        omega
      · rw [List.cons_append, nlRunInfo_hw _ hw hn, nlRunInfo_hw _ hw hn]
        exact ih (X' ++ t) ⟨t, rfl⟩
    · simp at hw
      rw [List.cons_append, nlRunInfo_nonWs _ hw, nlRunInfo_nonWs _ hw]

theorem rTrim_pre : ∀ l : List Char, ∃ t, rTrim l ++ t = l := by
  intro l
  induction l with
  | nil => exact ⟨[], rfl⟩
  | cons c rest ih =>
    simp only [rTrim]
    split
    · exact ⟨c :: rest, rfl⟩
    · obtain ⟨t, ht⟩ := ih
      exact ⟨t, by simp [ht]⟩

theorem hasNNN_rTrim : ∀ {l : List Char}, hasNNN l = false → hasNNN (rTrim l) = false := by
  intro l
  induction l with
  | nil => intro h; exact h
  | cons c rest ih =>
    intro h
    simp only [rTrim]
    split
    · rfl
    · rw [hasNNN_cons]
      refine Bool.or_eq_false_iff.mpr ⟨?_, ih (hasNNN_tail h)⟩
      by_cases hc : c = '\n'
      · subst hc
        have h3 := hasNNN_count_lt h
        have hmono : (nlRunInfo ('\n' :: rTrim rest)).1 ≤ (nlRunInfo ('\n' :: rest)).1 := by
          obtain ⟨t, ht⟩ := rTrim_pre rest
          exact nlRunInfo_fst_mono ('\n' :: rTrim rest) ('\n' :: rest) ⟨t, by simp [ht]⟩
        rw [show decide ('\n' = '\n') = true from rfl, Bool.true_and]
        exact decide_eq_false (by omega)
      · rw [decide_eq_false hc, Bool.false_and]

theorem collapseNewlines_count : ∀ (n : Nat) (l : List Char), l.length ≤ n →
    (nlRunInfo (collapseNewlines l)).1 = min (nlRunInfo l).1 2 := by
  intro n
  induction n with
  | zero =>
    intro l h
    have hl : l = [] := List.eq_nil_of_length_eq_zero (Nat.le_zero.mp h)
    subst hl
    simp [show collapseNewlines [] = [] from rfl, nlRunInfo]
  | succ n ih =>
    intro l h
    cases l with
    | nil => simp [show collapseNewlines [] = [] from rfl, nlRunInfo]
    | cons c rest =>
      simp only [List.length_cons] at h
      by_cases hcond : c = '\n' ∧ 3 ≤ (nlRunInfo (c :: rest)).1
      · obtain ⟨hc, h3⟩ := hcond
        subst hc
        rw [collapseNewlines_cons_match ⟨rfl, h3⟩]
        have hlen := nlRunInfo_snd_length ('\n' :: rest) (by omega)
        simp only [List.length_cons] at hlen
        have hafter := nlRunInfo_after ('\n' :: rest) (by omega)
        have hrec := ih ((nlRunInfo ('\n' :: rest)).2) (by omega)
        have hx : (nlRunInfo
            ('\n' :: '\n' :: collapseNewlines ((nlRunInfo ('\n' :: rest)).2))).1 = 2 := by
          rw [nlRunInfo_nl, nlRunInfo_nl]
          dsimp only
          rw [hrec, hafter]
          omega
        rw [hx]
        omega
      · rw [collapseNewlines_cons_else hcond]
        have hrec := ih rest (by omega)
        by_cases hw : isWsJS c = true
        · by_cases hn : c = '\n'
          · subst hn
            have h2 : (nlRunInfo ('\n' :: rest)).1 < 3 := by
              by_contra hh
              exact hcond ⟨rfl, by omega⟩
            have ha : (nlRunInfo ('\n' :: collapseNewlines rest)).1
                = (nlRunInfo (collapseNewlines rest)).1 + 1 := by
              rw [nlRunInfo_nl]
            have hb2 : (nlRunInfo ('\n' :: rest)).1 = (nlRunInfo rest).1 + 1 := by
              rw [nlRunInfo_nl]
            rw [ha, hrec, hb2]
            rw [hb2] at h2
            omega
          · rw [nlRunInfo_hw (collapseNewlines rest) hw hn,
              nlRunInfo_hw rest hw hn, hrec]
        · simp at hw
          rw [nlRunInfo_nonWs (collapseNewlines rest) hw, nlRunInfo_nonWs rest hw]
          simp

theorem collapseNewlines_noNNN : ∀ (n : Nat) (l : List Char), l.length ≤ n →
    hasNNN (collapseNewlines l) = false := by
  intro n
  induction n with
  | zero =>
    intro l h
    have hl : l = [] := List.eq_nil_of_length_eq_zero (Nat.le_zero.mp h)
    subst hl
    rfl
  | succ n ih =>
    intro l h
    cases l with
    | nil => rfl
    | cons c rest =>
      simp only [List.length_cons] at h
      by_cases hcond : c = '\n' ∧ 3 ≤ (nlRunInfo (c :: rest)).1
      · obtain ⟨hc, h3⟩ := hcond
        subst hc
        rw [collapseNewlines_cons_match ⟨rfl, h3⟩]
        have hlen := nlRunInfo_snd_length ('\n' :: rest) (by omega)
        simp only [List.length_cons] at hlen
        have hafter := nlRunInfo_after ('\n' :: rest) (by omega)
        have hcnt := collapseNewlines_count ((nlRunInfo ('\n' :: rest)).2).length
          ((nlRunInfo ('\n' :: rest)).2) (Nat.le_refl _)
        have hx2 : (nlRunInfo ('\n' :: collapseNewlines ((nlRunInfo ('\n' :: rest)).2))).1
            = 1 := by
          rw [nlRunInfo_nl]
          dsimp only
          rw [hcnt, hafter]
          omega
        have hx1 : (nlRunInfo
            ('\n' :: '\n' :: collapseNewlines ((nlRunInfo ('\n' :: rest)).2))).1 = 2 := by
          rw [nlRunInfo_nl]
          dsimp only
          rw [hx2]
        rw [hasNNN_cons, hasNNN_cons, hx1, hx2,
          ih ((nlRunInfo ('\n' :: rest)).2) (by omega)]
        decide
      · rw [collapseNewlines_cons_else hcond, hasNNN_cons]
        refine Bool.or_eq_false_iff.mpr ⟨?_, ih rest (by omega)⟩
        by_cases hc : c = '\n'
        · subst hc
          have h2 : (nlRunInfo ('\n' :: rest)).1 < 3 := by
            by_contra hh
            exact hcond ⟨rfl, by omega⟩
          have ha : (nlRunInfo ('\n' :: collapseNewlines rest)).1
              = (nlRunInfo (collapseNewlines rest)).1 + 1 := by
            rw [nlRunInfo_nl]
          have hb2 : (nlRunInfo ('\n' :: rest)).1 = (nlRunInfo rest).1 + 1 := by
            rw [nlRunInfo_nl]
          have hcnt := collapseNewlines_count rest.length rest (Nat.le_refl _)
          rw [show decide ('\n' = '\n') = true from rfl, Bool.true_and]
          refine decide_eq_false ?_
          rw [ha, hcnt]
          rw [hb2] at h2
          omega
        · rw [decide_eq_false hc, Bool.false_and]

theorem collapseNewlines_id : ∀ {l : List Char}, hasNNN l = false →
    collapseNewlines l = l := by
  intro l
  induction l with
  | nil => intro _; rfl
  | cons c rest ih =>
    intro h
    have hcond : ¬(c = '\n' ∧ 3 ≤ (nlRunInfo (c :: rest)).1) := by
      rintro ⟨hc, h3⟩
      subst hc
      exact absurd h3 (by have := hasNNN_count_lt h; omega)
    rw [collapseNewlines_cons_else hcond, ih (hasNNN_tail h)]

theorem nlRunInfo_dropWhile_hw : ∀ r : List Char,
    (nlRunInfo (r.dropWhile isHW)).1 = (nlRunInfo r).1 := by
  intro r
  induction r with
  | nil => rfl
  | cons c r' ih =>
    rw [List.dropWhile]
    cases hp : isHW c
    · rfl
    · obtain ⟨hw, hn⟩ := isHW_isWs hp
      rw [nlRunInfo_hw r' hw hn]
      exact ih

theorem collapseSpaces_count : ∀ (n : Nat) (l : List Char), l.length ≤ n →
    (nlRunInfo (collapseSpaces l)).1 = (nlRunInfo l).1 := by
  intro n
  induction n with
  | zero =>
    intro l h
    have hl : l = [] := List.eq_nil_of_length_eq_zero (Nat.le_zero.mp h)
    subst hl
    rfl
  | succ n ih =>
    intro l h
    cases l with
    | nil => rfl
    | cons c rest =>
      simp only [List.length_cons] at h
      cases hp : isHW c
      · rw [collapseSpaces_cons_not rest hp]
        by_cases hw : isWsJS c = true
        · by_cases hn : c = '\n'
          · subst hn
            rw [nlRunInfo_nl, nlRunInfo_nl]
            dsimp only
            rw [ih rest (by omega)]
          · rw [nlRunInfo_hw (collapseSpaces rest) hw hn, nlRunInfo_hw rest hw hn]
            exact ih rest (by omega)
        · simp at hw
          rw [nlRunInfo_nonWs (collapseSpaces rest) hw, nlRunInfo_nonWs rest hw]
      · rw [collapseSpaces_cons_hw rest hp]
        obtain ⟨hw, hn⟩ := isHW_isWs hp
        have hd := length_dropWhile_le isHW rest
        rw [nlRunInfo_hw (collapseSpaces (rest.dropWhile isHW)) (by decide) (by decide),
          nlRunInfo_hw rest hw hn, ih (rest.dropWhile isHW) (by omega),
          nlRunInfo_dropWhile_hw rest]

theorem collapseSpaces_noNNN : ∀ (n : Nat) (l : List Char), l.length ≤ n →
    hasNNN l = false → hasNNN (collapseSpaces l) = false := by
  intro n
  induction n with
  | zero =>
    intro l h _
    have hl : l = [] := List.eq_nil_of_length_eq_zero (Nat.le_zero.mp h)
    subst hl
    rfl
  | succ n ih =>
    intro l h hn0
    cases l with
    | nil => rfl
    | cons c rest =>
      simp only [List.length_cons] at h
      cases hp : isHW c
      · rw [collapseSpaces_cons_not rest hp, hasNNN_cons]
        refine Bool.or_eq_false_iff.mpr ⟨?_, ih rest (by omega) (hasNNN_tail hn0)⟩
        by_cases hc : c = '\n'
        · subst hc
          have h2 := hasNNN_count_lt hn0
          have ha : (nlRunInfo ('\n' :: collapseSpaces rest)).1
              = (nlRunInfo (collapseSpaces rest)).1 + 1 := by
            rw [nlRunInfo_nl]
          have hb2 : (nlRunInfo ('\n' :: rest)).1 = (nlRunInfo rest).1 + 1 := by
            rw [nlRunInfo_nl]
          rw [show decide ('\n' = '\n') = true from rfl, Bool.true_and]
          refine decide_eq_false ?_
          rw [ha, collapseSpaces_count rest.length rest (Nat.le_refl _)]
          rw [hb2] at h2
          omega
        · rw [decide_eq_false hc, Bool.false_and]
      · rw [collapseSpaces_cons_hw rest hp, hasNNN_cons]
        have hd := length_dropWhile_le isHW rest
        refine Bool.or_eq_false_iff.mpr
          ⟨by rw [decide_eq_false (by decide : ¬(' ' = '\n')), Bool.false_and],
           ih (rest.dropWhile isHW) (by omega)
             (hasNNN_dropWhile isHW (hasNNN_tail hn0))⟩

/-- No two adjacent horizontal-whitespace characters. -/
def noHWPair : List Char → Bool
  | a :: b :: rest => (!(isHW a && isHW b)) && noHWPair (b :: rest)
  | _ => true

theorem noHWPair_cons2 (a b : Char) (rest : List Char) :
    noHWPair (a :: b :: rest) = ((!(isHW a && isHW b)) && noHWPair (b :: rest)) := rfl

theorem noHWPair_tail {a : Char} {X : List Char} (h : noHWPair (a :: X) = true) :
    noHWPair X = true := by
  cases X with
  | nil => rfl
  | cons b X' =>
    rw [noHWPair_cons2, Bool.and_eq_true] at h
    exact h.2

theorem noHWPair_cons_of {a : Char} {X : List Char} (ha : isHW a = false)
    (h : noHWPair X = true) : noHWPair (a :: X) = true := by
  cases X with
  | nil => rfl
  | cons b X' =>
    rw [noHWPair_cons2, ha]
    simpa using h

theorem mem_dropWhile_sub (p : Char → Bool) :
    ∀ {l : List Char} {x : Char}, x ∈ l.dropWhile p → x ∈ l := by
  intro l
  induction l with
  | nil => intro x h; exact h
  | cons c rest ih =>
    intro x h
    rw [List.dropWhile] at h
    revert h
    cases hp : p c
    · intro h; exact h
    · intro h; exact List.mem_cons_of_mem _ (ih h)

theorem noHWPair_dropWhile (p : Char → Bool) :
    ∀ {l : List Char}, noHWPair l = true → noHWPair (l.dropWhile p) = true := by
  intro l
  induction l with
  | nil => intro h; exact h
  | cons c rest ih =>
    intro h
    rw [List.dropWhile]
    cases hp : p c
    · exact h
    · exact ih (noHWPair_tail h)

theorem dropWhile_shape (p : Char → Bool) : ∀ l : List Char,
    l.dropWhile p = [] ∨ ∃ y Y, l.dropWhile p = y :: Y ∧ p y = false := by
  intro l
  induction l with
  | nil => exact Or.inl rfl
  | cons c rest ih =>
    rw [List.dropWhile]
    cases hp : p c
    · exact Or.inr ⟨c, rest, rfl, hp⟩
    · exact ih

theorem collapseSpaces_tab : ∀ (n : Nat) (l : List Char), l.length ≤ n →
    '\t' ∉ collapseSpaces l := by
  intro n
  induction n with
  | zero =>
    intro l h
    have hl : l = [] := List.eq_nil_of_length_eq_zero (Nat.le_zero.mp h)
    subst hl
    simp [show collapseSpaces [] = [] from rfl]
  | succ n ih =>
    intro l h
    cases l with
    | nil => simp [show collapseSpaces [] = [] from rfl]
    | cons c rest =>
      simp only [List.length_cons] at h
      cases hp : isHW c
      · rw [collapseSpaces_cons_not rest hp]
        intro hm
        rcases List.mem_cons.mp hm with hm | hm
        · rw [← hm] at hp
          exact absurd hp (by decide)
        · exact ih rest (by omega) hm
      · rw [collapseSpaces_cons_hw rest hp]
        intro hm
        rcases List.mem_cons.mp hm with hm | hm
        · exact absurd hm (by decide)
        · have hd := length_dropWhile_le isHW rest
          exact ih (rest.dropWhile isHW) (by omega) hm

theorem collapseSpaces_noHWPair : ∀ (n : Nat) (l : List Char), l.length ≤ n →
    noHWPair (collapseSpaces l) = true := by
  intro n
  induction n with
  | zero =>
    intro l h
    have hl : l = [] := List.eq_nil_of_length_eq_zero (Nat.le_zero.mp h)
    subst hl
    rfl
  | succ n ih =>
    intro l h
    cases l with
    | nil => rfl
    | cons c rest =>
      simp only [List.length_cons] at h
      cases hp : isHW c
      · rw [collapseSpaces_cons_not rest hp]
        exact noHWPair_cons_of hp (ih rest (by omega))
      · rw [collapseSpaces_cons_hw rest hp]
        have hd := length_dropWhile_le isHW rest
        have hsp := ih (rest.dropWhile isHW) (by omega)
        rcases dropWhile_shape isHW rest with hY | ⟨y, Y', hY, hpy⟩
        · rw [hY]
          rfl
        · rw [hY] at hsp ⊢
          rw [collapseSpaces_cons_not Y' hpy] at hsp ⊢
          rw [noHWPair_cons2]
          simp [hpy, hsp]

theorem collapseSpaces_id : ∀ {l : List Char}, '\t' ∉ l → noHWPair l = true →
    collapseSpaces l = l := by
  intro l
  induction l with
  | nil => intro _ _; rfl
  | cons c rest ih =>
    intro htab hpair
    cases hp : isHW c
    · rw [collapseSpaces_cons_not rest hp,
        ih (fun hm => htab (List.mem_cons_of_mem _ hm)) (noHWPair_tail hpair)]
    · have hc : c = ' ' := by
        have hor : c = ' ' ∨ c = '\t' := by simpa [isHW] using hp
        rcases hor with rfl | rfl
        · rfl
        · exact absurd (List.mem_cons_self _ _) htab
      subst hc
      rw [collapseSpaces_cons_hw rest hp]
      have hdw : rest.dropWhile isHW = rest := by
        cases rest with
        | nil => rfl
        | cons d r' =>
          rw [noHWPair_cons2, Bool.and_eq_true] at hpair
          have h1 := hpair.1
          have hd : isHW d = false := by
            cases hdd : isHW d
            · rfl
            · rw [hdd] at h1
              simp [isHW] at h1
          rw [List.dropWhile, hd]
      rw [hdw, ih (fun hm => htab (List.mem_cons_of_mem _ hm)) (noHWPair_tail hpair)]

theorem mem_rTrim_sub : ∀ {l : List Char} {x : Char}, x ∈ rTrim l → x ∈ l := by
  intro l
  induction l with
  | nil => intro x h; exact h
  | cons c rest ih =>
    intro x h
    simp only [rTrim] at h
    revert h
    split
    · intro h; exact absurd h (List.not_mem_nil x)
    · intro h
      rcases List.mem_cons.mp h with hm | hm
      · exact hm ▸ List.mem_cons_self c rest
      · exact List.mem_cons_of_mem _ (ih hm)

theorem noHWPair_rTrim : ∀ {l : List Char}, noHWPair l = true →
    noHWPair (rTrim l) = true := by
  intro l
  induction l with
  | nil => intro h; exact h
  | cons c rest ih =>
    intro h
    simp only [rTrim]
    split
    · rfl
    · have htl := ih (noHWPair_tail h)
      cases hsh : rTrim rest with
      | nil => rfl
      | cons d Z =>
        cases rest with
        | nil => simp [rTrim] at hsh
        | cons e r' =>
          have hde : d = e := by
            revert hsh
            simp only [rTrim]
            split
            · intro hsh; exact absurd hsh (by simp)
            · intro hsh
              exact (List.cons.injEq .. ▸ hsh).1.symm
          subst hde
          rw [hsh] at htl
          rw [noHWPair_cons2]
          rw [noHWPair_cons2, Bool.and_eq_true] at h
          rw [h.1, htl]
          rfl

theorem rTrim_idem : ∀ l : List Char, rTrim (rTrim l) = rTrim l := by
  intro l
  induction l with
  | nil => rfl
  | cons c rest ih =>
    by_cases h1 : (decide (rTrim rest = []) && isWsJS c) = true
    · rw [show rTrim (c :: rest) = [] from by simp only [rTrim]; rw [if_pos h1]]
      rfl
    · have he : rTrim (c :: rest) = c :: rTrim rest := by
        simp only [rTrim]
        rw [if_neg h1]
      rw [he]
      have h2 : rTrim (c :: rTrim rest) = c :: rTrim (rTrim rest) := by
        simp only [rTrim]
        rw [if_neg (by rwa [ih])]
      rw [h2, ih]

theorem trimJS_front (l : List Char) :
    List.dropWhile isWsJS (trimJS l) = trimJS l := by
  rw [show trimJS l = rTrim (List.dropWhile isWsJS l) from rfl]
  rcases dropWhile_shape isWsJS l with hY | ⟨y, Y, hY, hpy⟩
  · rw [hY]
    rfl
  · rw [hY]
    cases hsh : rTrim (y :: Y) with
    | nil => rfl
    | cons d Z =>
      have hd : d = y := by
        revert hsh
        simp only [rTrim]
        split
        · intro hsh; exact absurd hsh (by simp)
        · intro hsh
          exact (List.cons.injEq .. ▸ hsh).1.symm
      subst hd
      rw [List.dropWhile, hpy]

theorem trimJS_idem (l : List Char) : trimJS (trimJS l) = trimJS l := by
  rw [show trimJS (trimJS l) = rTrim (List.dropWhile isWsJS (trimJS l)) from rfl,
    trimJS_front, show trimJS l = rTrim (List.dropWhile isWsJS l) from rfl,
    rTrim_idem]

theorem mem_collapseNewlines : ∀ (n : Nat) (l : List Char), l.length ≤ n →
    ∀ {x : Char}, x ∈ collapseNewlines l → x ∈ l ∨ x = '\n' := by
  intro n
  induction n with
  | zero =>
    intro l h x hm
    have hl : l = [] := List.eq_nil_of_length_eq_zero (Nat.le_zero.mp h)
    subst hl
    exact absurd hm (List.not_mem_nil x)
  | succ n ih =>
    intro l h x hm
    cases l with
    | nil => exact absurd hm (List.not_mem_nil x)
    | cons c rest =>
      simp only [List.length_cons] at h
      by_cases hcond : c = '\n' ∧ 3 ≤ (nlRunInfo (c :: rest)).1
      · rw [collapseNewlines_cons_match hcond] at hm
        have hlen := nlRunInfo_snd_length (c :: rest) (by omega)
        simp only [List.length_cons] at hlen
        rcases List.mem_cons.mp hm with hm | hm
        · exact Or.inr hm
        · rcases List.mem_cons.mp hm with hm | hm
          · exact Or.inr hm
          · rcases ih ((nlRunInfo (c :: rest)).2) (by omega) hm with hx | hx
            · obtain ⟨t, ht⟩ := nlRunInfo_snd_suffix (c :: rest)
              exact Or.inl (ht ▸ List.mem_append_right t hx)
            · exact Or.inr hx
      · rw [collapseNewlines_cons_else hcond] at hm
        rcases List.mem_cons.mp hm with hm | hm
        · exact Or.inl (hm ▸ List.mem_cons_self c rest)
        · rcases ih rest (by omega) hm with hx | hx
          · exact Or.inl (List.mem_cons_of_mem _ hx)
          · exact Or.inr hx

theorem mem_collapseSpaces : ∀ (n : Nat) (l : List Char), l.length ≤ n →
    ∀ {x : Char}, x ∈ collapseSpaces l → x ∈ l ∨ x = ' ' := by
  intro n
  induction n with
  | zero =>
    intro l h x hm
    have hl : l = [] := List.eq_nil_of_length_eq_zero (Nat.le_zero.mp h)
    subst hl
    exact absurd hm (List.not_mem_nil x)
  | succ n ih =>
    intro l h x hm
    cases l with
    | nil => exact absurd hm (List.not_mem_nil x)
    | cons c rest =>
      simp only [List.length_cons] at h
      cases hp : isHW c
      · rw [collapseSpaces_cons_not rest hp] at hm
        rcases List.mem_cons.mp hm with hm | hm
        · exact Or.inl (hm ▸ List.mem_cons_self c rest)
        · rcases ih rest (by omega) hm with hx | hx
          · exact Or.inl (List.mem_cons_of_mem _ hx)
          · exact Or.inr hx
      · rw [collapseSpaces_cons_hw rest hp] at hm
        have hd := length_dropWhile_le isHW rest
        rcases List.mem_cons.mp hm with hm | hm
        · exact Or.inr hm
        · rcases ih (rest.dropWhile isHW) (by omega) hm with hx | hx
          · exact Or.inl (List.mem_cons_of_mem _ (mem_dropWhile_sub isHW hx))
          · exact Or.inr hx

theorem mem_trimJS_sub {l : List Char} {x : Char} (h : x ∈ trimJS l) : x ∈ l :=
  mem_dropWhile_sub isWsJS (mem_rTrim_sub h)

/-- On a `<`- and `R`-free string the six token-removal passes are the
identity, so the whole chain is whitespace normalization plus trim. -/
theorem cleanResponseL_eq_ws (l : List Char) (hlt : '<' ∉ l) (hR : 'R' ∉ l) :
    cleanResponseL l = trimJS (collapseSpaces (collapseNewlines l)) := by
  rw [cleanResponseL, limitThink_id hlt, removeThink_id hlt, removeRedacted_id hR,
    removeSpecialTok_id hlt, removeEOS_id hlt, removeEndTok_id hlt]

theorem collapseNewlines_append_plain :
    ∀ {a : List Char}, (∀ x ∈ a, isWsJS x = false) →
      ∀ X, collapseNewlines (a ++ X) = a ++ collapseNewlines X := by
  intro a
  induction a with
  | nil => intro _ X; rfl
  | cons c a' ih =>
    intro ha X
    have hc : isWsJS c = false := ha c (List.mem_cons_self c a')
    have hcn : c ≠ '\n' := by
      intro hcc
      rw [hcc] at hc
      exact absurd hc (by decide)
    rw [List.cons_append, collapseNewlines_cons_else (by rintro ⟨h1, _⟩; exact hcn h1),
      ih (fun x hx => ha x (List.mem_cons_of_mem _ hx)) X, List.cons_append]

theorem collapseSpaces_append_plain :
    ∀ {a : List Char}, (∀ x ∈ a, isHW x = false) →
      ∀ X, collapseSpaces (a ++ X) = a ++ collapseSpaces X := by
  intro a
  induction a with
  | nil => intro _ X; rfl
  | cons c a' ih =>
    intro ha X
    rw [List.cons_append, collapseSpaces_cons_not _ (ha c (List.mem_cons_self c a')),
      ih (fun x hx => ha x (List.mem_cons_of_mem _ hx)) X, List.cons_append]

theorem collapseNewlines_ws_free {b : List Char} (hb : ∀ x ∈ b, isWsJS x = false) :
    collapseNewlines b = b := by
  have h := collapseNewlines_append_plain hb []
  simp only [List.append_nil, show collapseNewlines ([] : List Char) = [] from rfl] at h
  exact h

theorem collapseSpaces_hw_free {b : List Char} (hb : ∀ x ∈ b, isHW x = false) :
    collapseSpaces b = b := by
  have h := collapseSpaces_append_plain hb []
  simp only [List.append_nil, show collapseSpaces ([] : List Char) = [] from rfl] at h
  exact h

theorem nlRunInfo_replicate : ∀ (k : Nat) (y : Char) (Y : List Char),
    isWsJS y = false → 1 ≤ k →
    nlRunInfo (List.replicate k '\n' ++ (y :: Y)) = (k, y :: Y) := by
  intro k
  induction k with
  | zero => intro y Y _ h; omega
  | succ k ih =>
    intro y Y hy _
    rw [List.replicate_succ, List.cons_append, nlRunInfo_nl]
    cases k with
    | zero =>
      rw [show List.replicate 0 '\n' ++ (y :: Y) = y :: Y from rfl, nlRunInfo_nonWs Y hy]
      rfl
    | succ k' =>
      rw [ih y Y hy (by omega)]
      simp

theorem collapseNewlines_run (k : Nat) (y : Char) (Y : List Char)
    (hY : ∀ x ∈ y :: Y, isWsJS x = false) (h3 : 3 ≤ k) :
    collapseNewlines (List.replicate k '\n' ++ (y :: Y)) = '\n' :: '\n' :: y :: Y := by
  have hy : isWsJS y = false := hY y (List.mem_cons_self y Y)
  cases k with
  | zero => omega
  | succ k' =>
    have hli := nlRunInfo_replicate (k' + 1) y Y hy (by omega)
    rw [List.replicate_succ, List.cons_append] at hli ⊢
    rw [collapseNewlines_cons_match ⟨rfl, by rw [hli]; simpa using h3⟩, hli]
    dsimp only
    rw [collapseNewlines_ws_free hY]

theorem nlRunInfo_fst_ws_free {b : List Char} (hb : ∀ x ∈ b, isWsJS x = false) :
    (nlRunInfo b).1 = 0 := by
  cases b with
  | nil => rfl
  | cons y Y => rw [nlRunInfo_nonWs Y (hb y (List.mem_cons_self y Y))]

theorem collapseNewlines_two (b : List Char) (hb : ∀ x ∈ b, isWsJS x = false) :
    collapseNewlines ('\n' :: '\n' :: b) = '\n' :: '\n' :: b := by
  have hb0 := nlRunInfo_fst_ws_free hb
  have h1c : (nlRunInfo ('\n' :: b)).1 = 1 := by
    rw [nlRunInfo_nl]
    dsimp only
    rw [hb0]
  have h0 : (nlRunInfo ('\n' :: '\n' :: b)).1 = 2 := by
    rw [nlRunInfo_nl]
    dsimp only
    rw [h1c]
  rw [collapseNewlines_cons_else (by rintro ⟨_, hcc⟩; rw [h0] at hcc; omega),
    collapseNewlines_cons_else (by rintro ⟨_, hcc⟩; rw [h1c] at hcc; omega),
    collapseNewlines_ws_free hb]

theorem dropWhile_replicate_sp : ∀ (m : Nat) (b : List Char),
    (List.replicate m ' ' ++ b).dropWhile isHW = b.dropWhile isHW := by
  intro m
  induction m with
  | zero => intro b; rfl
  | succ m ih =>
    intro b
    rw [List.replicate_succ, List.cons_append, List.dropWhile]
    exact ih b

theorem collapseSpaces_run (k : Nat) (hk : 1 ≤ k) (b : List Char)
    (hb : ∀ x ∈ b, isHW x = false) :
    collapseSpaces (List.replicate k ' ' ++ b) = ' ' :: b := by
  have hbdw : b.dropWhile isHW = b := by
    cases b with
    | nil => rfl
    | cons y Y =>
      rw [List.dropWhile, hb y (List.mem_cons_self y Y)]
  cases k with
  | zero => omega
  | succ k' =>
    rw [List.replicate_succ, List.cons_append,
      collapseSpaces_cons_hw _ (by decide), dropWhile_replicate_sp k' b, hbdw,
      collapseSpaces_hw_free hb]

theorem rTrim_append_last (L : List Char) (d : Char) (hd : isWsJS d = false) :
    rTrim (L ++ [d]) = L ++ [d] := by
  induction L with
  | nil =>
    simp only [List.nil_append, rTrim]
    rw [if_neg (by simp [hd])]
  | cons c L' ih =>
    simp only [List.cons_append, rTrim, List.append_eq, ih]
    rw [if_neg (by simp)]

theorem trimJS_id_plain_ends (c0 : Char) (a mid : List Char) (d : Char)
    (hc0 : isWsJS c0 = false) (hd : isWsJS d = false) :
    trimJS ((c0 :: a) ++ mid ++ [d]) = (c0 :: a) ++ mid ++ [d] := by
  have hfront : List.dropWhile isWsJS ((c0 :: a) ++ mid ++ [d])
      = (c0 :: a) ++ mid ++ [d] := by
    simp only [List.cons_append, List.dropWhile, hc0, List.append_eq]
  rw [show trimJS ((c0 :: a) ++ mid ++ [d])
      = rTrim (List.dropWhile isWsJS ((c0 :: a) ++ mid ++ [d])) from rfl, hfront]
  exact rTrim_append_last ((c0 :: a) ++ mid) d hd

theorem collapseNewlines_replicate_sp : ∀ (m : Nat) (X : List Char),
    collapseNewlines (List.replicate m ' ' ++ X)
      = List.replicate m ' ' ++ collapseNewlines X := by
  intro m
  induction m with
  | zero => intro X; rfl
  | succ m ih =>
    intro X
    rw [List.replicate_succ, List.cons_append,
      collapseNewlines_cons_else (by rintro ⟨h1, _⟩; exact absurd h1 (by decide)),
      ih X, List.cons_append]

/-- A character the source's cleanup passes copy untouched: not whitespace,
not `<`, not `R`. -/
def plainChar (c : Char) : Bool :=
  !isWsJS c && !(c == '<') && !(c == 'R')

theorem plainChar_props {c : Char} (h : plainChar c = true) :
    isWsJS c = false ∧ isHW c = false ∧ c ≠ '<' ∧ c ≠ 'R' ∧ c ≠ '\n' := by
  simp only [plainChar, Bool.and_eq_true, Bool.not_eq_true', beq_eq_false_iff_ne] at h
  obtain ⟨⟨hws, hlt⟩, hR⟩ := h
  refine ⟨hws, ?_, hlt, hR, ?_⟩
  · cases hhw : isHW c
    · rfl
    · obtain ⟨hw, _⟩ := isHW_isWs hhw
      rw [hw] at hws
      exact absurd hws (by decide)
  · intro hcc
    rw [hcc] at hws
    exact absurd hws (by decide)

/-- A document: a leading text segment, then alternating (whitespace-run,
text-segment) pairs, rendered by concatenation. -/
def renderDoc : List Char → List (List Char × List Char) → List Char
  | p0, [] => p0
  | p0, s :: rest => p0 ++ s.1 ++ renderDoc s.2 rest

/-- The whitespace-run shapes of the claim: an intentional double-newline
paragraph break, a newline run of length at least 3, or a nonempty run of
horizontal whitespace (spaces and tabs). -/
def goodRun (w : List Char) : Prop :=
  w = ['\n', '\n'] ∨ (∃ k, 3 ≤ k ∧ w = List.replicate k '\n') ∨
    (w ≠ [] ∧ ∀ x ∈ w, isHW x = true)

/-- What the cleanup chain leaves of a whitespace run: newline runs become
exactly two newlines (so a paragraph break is kept as is), horizontal runs a
single space. -/
def collapsedRun (w : List Char) : List Char :=
  if '\n' ∈ w then ['\n', '\n'] else [' ']

/-- Effect of the newline pass alone on a run. -/
def nlRun (w : List Char) : List Char :=
  if '\n' ∈ w then ['\n', '\n'] else w

/-- Effect of the horizontal-whitespace pass alone on a run. -/
def spRun (w : List Char) : List Char :=
  if '\n' ∈ w then w else [' ']

theorem renderDoc_cons (c : Char) (p : List Char) (segs : List (List Char × List Char)) :
    ∃ t, renderDoc (c :: p) segs = c :: t := by
  cases segs with
  | nil => exact ⟨p, rfl⟩
  | cons s rest => exact ⟨p ++ s.1 ++ renderDoc s.2 rest, rfl⟩

theorem mem_renderDoc : ∀ (segs : List (List Char × List Char)) (p0 : List Char) (x : Char),
    x ∈ renderDoc p0 segs → x ∈ p0 ∨ ∃ s, s ∈ segs ∧ (x ∈ s.1 ∨ x ∈ s.2) := by
  intro segs
  induction segs with
  | nil => intro p0 x hx; exact Or.inl hx
  | cons s rest ih =>
    intro p0 x hx
    have hx' : x ∈ (p0 ++ s.1) ++ renderDoc s.2 rest := hx
    rcases List.mem_append.mp hx' with h | h
    · rcases List.mem_append.mp h with h | h
      · exact Or.inl h
      · exact Or.inr ⟨s, List.mem_cons_self s rest, Or.inl h⟩
    · rcases ih s.2 x h with h | ⟨s', hs', h⟩
      · exact Or.inr ⟨s, List.mem_cons_self s rest, Or.inr h⟩
      · exact Or.inr ⟨s', List.mem_cons_of_mem s hs', h⟩

theorem collapseNewlines_append_nlfree :
    ∀ {a : List Char}, (∀ x ∈ a, x ≠ '\n') →
      ∀ X, collapseNewlines (a ++ X) = a ++ collapseNewlines X := by
  intro a
  induction a with
  | nil => intro _ X; rfl
  | cons c a' ih =>
    intro ha X
    rw [List.cons_append, collapseNewlines_cons_else
      (by rintro ⟨h1, _⟩; exact ha c (List.mem_cons_self c a') h1),
      ih (fun x hx => ha x (List.mem_cons_of_mem _ hx)) X, List.cons_append]

theorem collapseNewlines_two_step (b : List Char) (hb0 : (nlRunInfo b).1 = 0) :
    collapseNewlines ('\n' :: '\n' :: b) = '\n' :: '\n' :: collapseNewlines b := by
  have h1c : (nlRunInfo ('\n' :: b)).1 = 1 := by
    rw [nlRunInfo_nl]
    dsimp only
    rw [hb0]
  have h0 : (nlRunInfo ('\n' :: '\n' :: b)).1 = 2 := by
    rw [nlRunInfo_nl]
    dsimp only
    rw [h1c]
  rw [collapseNewlines_cons_else (by rintro ⟨_, hcc⟩; rw [h0] at hcc; omega),
    collapseNewlines_cons_else (by rintro ⟨_, hcc⟩; rw [h1c] at hcc; omega)]

theorem collapseNewlines_run_step (k : Nat) (y : Char) (Y : List Char)
    (hy : isWsJS y = false) (h3 : 3 ≤ k) :
    collapseNewlines (List.replicate k '\n' ++ (y :: Y))
      = '\n' :: '\n' :: collapseNewlines (y :: Y) := by
  cases k with
  | zero => omega
  | succ k' =>
    have hli := nlRunInfo_replicate (k' + 1) y Y hy (by omega)
    rw [List.replicate_succ, List.cons_append] at hli ⊢
    rw [collapseNewlines_cons_match ⟨rfl, by rw [hli]; simpa using h3⟩, hli]

theorem dropWhile_hw_append : ∀ (w : List Char), (∀ x ∈ w, isHW x = true) →
    ∀ (X : List Char), (w ++ X).dropWhile isHW = X.dropWhile isHW := by
  intro w
  induction w with
  | nil => intro _ X; rfl
  | cons c w' ih =>
    intro hw X
    rw [List.cons_append, List.dropWhile, hw c (List.mem_cons_self c w')]
    exact ih (fun x hx => hw x (List.mem_cons_of_mem c hx)) X

theorem rTrim_append_of (X R : List Char) (hR : rTrim R = R) (hne : R ≠ []) :
    rTrim (X ++ R) = X ++ R := by
  induction X with
  | nil => simpa using hR
  | cons c X' ih =>
    simp only [List.cons_append, rTrim, List.append_eq, ih]
    rw [if_neg (by simp [hne])]

theorem collapseNewlines_doc : ∀ (segs : List (List Char × List Char)) (p0 : List Char),
    (∀ x ∈ p0, isWsJS x = false) →
    (∀ s ∈ segs, goodRun s.1 ∧ (s.2 ≠ [] ∧ ∀ x ∈ s.2, plainChar x = true)) →
    collapseNewlines (renderDoc p0 segs)
      = renderDoc p0 (segs.map (fun s => (nlRun s.1, s.2))) := by
  intro segs
  induction segs with
  | nil =>
    intro p0 hp0 _
    exact collapseNewlines_ws_free hp0
  | cons s rest ih =>
    intro p0 hp0 hsegs
    obtain ⟨hrun, hs2ne, hs2pl⟩ := hsegs s (List.mem_cons_self s rest)
    obtain ⟨c2, p2, hp2⟩ : ∃ c2 p2, s.2 = c2 :: p2 := by
      cases h2 : s.2 with
      | nil => exact absurd h2 hs2ne
      | cons c2 p2 => exact ⟨c2, p2, rfl⟩
    have hc2 : isWsJS c2 = false :=
      (plainChar_props (hs2pl c2 (by rw [hp2]; exact List.mem_cons_self c2 p2))).1
    obtain ⟨t, ht⟩ : ∃ t, renderDoc s.2 rest = c2 :: t := by
      rw [hp2]; exact renderDoc_cons c2 p2 rest
    have hih := ih s.2 (fun x hx => (plainChar_props (hs2pl x hx)).1)
      (fun s' hs' => hsegs s' (List.mem_cons_of_mem s hs'))
    have hp0nl : ∀ x ∈ p0, x ≠ '\n' := fun x hx hq => by
      have hh := hp0 x hx
      rw [hq] at hh
      exact absurd hh (by decide)
    show collapseNewlines (p0 ++ s.1 ++ renderDoc s.2 rest)
      = p0 ++ nlRun s.1 ++ renderDoc s.2 (rest.map (fun s => (nlRun s.1, s.2)))
    rw [List.append_assoc, collapseNewlines_append_nlfree hp0nl (s.1 ++ renderDoc s.2 rest)]
    rcases hrun with hpar | ⟨k, hk3, hnl⟩ | ⟨hwne, hhw⟩
    · rw [hpar, ht,
        show (['\n', '\n'] : List Char) ++ (c2 :: t) = '\n' :: '\n' :: c2 :: t from rfl,
        collapseNewlines_two_step (c2 :: t) (by rw [nlRunInfo_nonWs t hc2]), ← ht, hih,
        show nlRun (['\n', '\n'] : List Char) = ['\n', '\n'] from by decide]
      simp [List.append_assoc]
    · rw [hnl, ht, collapseNewlines_run_step k c2 t hc2 hk3, ← ht, hih]
      have hk0 : k ≠ 0 := by omega
      have hnlr : nlRun (List.replicate k '\n') = ['\n', '\n'] := by
        simp only [nlRun, if_pos (List.mem_replicate.mpr ⟨hk0, rfl⟩)]
      rw [hnlr]
      simp [List.append_assoc]
    · have hnlfree : ∀ x ∈ s.1, x ≠ '\n' := fun x hx hq => by
        have hh := hhw x hx
        rw [hq] at hh
        exact absurd hh (by decide)
      rw [collapseNewlines_append_nlfree hnlfree (renderDoc s.2 rest), hih]
      have hnomem : '\n' ∉ s.1 := fun hm => hnlfree '\n' hm rfl
      have hnlr : nlRun s.1 = s.1 := by simp only [nlRun, if_neg hnomem]
      rw [hnlr]
      simp [List.append_assoc]

theorem collapseSpaces_doc : ∀ (segs : List (List Char × List Char)) (p0 : List Char),
    (∀ x ∈ p0, isHW x = false) →
    (∀ s ∈ segs, (s.1 = ['\n', '\n'] ∨ (s.1 ≠ [] ∧ ∀ x ∈ s.1, isHW x = true)) ∧
      (s.2 ≠ [] ∧ ∀ x ∈ s.2, plainChar x = true)) →
    collapseSpaces (renderDoc p0 segs)
      = renderDoc p0 (segs.map (fun s => (spRun s.1, s.2))) := by
  intro segs
  induction segs with
  | nil =>
    intro p0 hp0 _
    exact collapseSpaces_hw_free hp0
  | cons s rest ih =>
    intro p0 hp0 hsegs
    obtain ⟨hrun, hs2ne, hs2pl⟩ := hsegs s (List.mem_cons_self s rest)
    obtain ⟨c2, p2, hp2⟩ : ∃ c2 p2, s.2 = c2 :: p2 := by
      cases h2 : s.2 with
      | nil => exact absurd h2 hs2ne
      | cons c2 p2 => exact ⟨c2, p2, rfl⟩
    have hc2hw : isHW c2 = false :=
      (plainChar_props (hs2pl c2 (by rw [hp2]; exact List.mem_cons_self c2 p2))).2.1
    obtain ⟨t, ht⟩ : ∃ t, renderDoc s.2 rest = c2 :: t := by
      rw [hp2]; exact renderDoc_cons c2 p2 rest
    have hih := ih s.2 (fun x hx => (plainChar_props (hs2pl x hx)).2.1)
      (fun s' hs' => hsegs s' (List.mem_cons_of_mem s hs'))
    show collapseSpaces (p0 ++ s.1 ++ renderDoc s.2 rest)
      = p0 ++ spRun s.1 ++ renderDoc s.2 (rest.map (fun s => (spRun s.1, s.2)))
    rw [List.append_assoc, collapseSpaces_append_plain hp0 (s.1 ++ renderDoc s.2 rest)]
    rcases hrun with hpar | ⟨hwne, hhw⟩
    · rw [hpar,
        show (['\n', '\n'] : List Char) ++ renderDoc s.2 rest
          = '\n' :: '\n' :: renderDoc s.2 rest from rfl,
        collapseSpaces_cons_not _ (by decide), collapseSpaces_cons_not _ (by decide), hih,
        show spRun (['\n', '\n'] : List Char) = ['\n', '\n'] from by decide]
      simp [List.append_assoc]
    · obtain ⟨c1, w', hw1⟩ : ∃ c1 w', s.1 = c1 :: w' := by
        cases h1 : s.1 with
        | nil => exact absurd h1 hwne
        | cons c1 w' => exact ⟨c1, w', rfl⟩
      have hc1 : isHW c1 = true := hhw c1 (by rw [hw1]; exact List.mem_cons_self c1 w')
      have hw' : ∀ x ∈ w', isHW x = true := fun x hx =>
        hhw x (by rw [hw1]; exact List.mem_cons_of_mem c1 hx)
      have hdw : List.dropWhile isHW (renderDoc s.2 rest) = renderDoc s.2 rest := by
        rw [ht, List.dropWhile, hc2hw]
      rw [hw1, List.cons_append, collapseSpaces_cons_hw _ hc1,
        dropWhile_hw_append w' hw' (renderDoc s.2 rest), hdw, hih]
      have hnomem : '\n' ∉ c1 :: w' := by
        intro hm
        have hh := hhw '\n' (by rw [hw1]; exact hm)
        exact absurd hh (by decide)
      have hspr : spRun (c1 :: w') = [' '] := by simp only [spRun, if_neg hnomem]
      rw [hspr]
      simp [List.append_assoc]

theorem rTrim_renderDoc : ∀ (segs : List (List Char × List Char)) (p0 : List Char),
    p0 ≠ [] → (∀ x ∈ p0, isWsJS x = false) →
    (∀ s ∈ segs, s.2 ≠ [] ∧ ∀ x ∈ s.2, isWsJS x = false) →
    rTrim (renderDoc p0 segs) = renderDoc p0 segs := by
  intro segs
  induction segs with
  | nil =>
    intro p0 hne hp0 _
    obtain ⟨M, d, hMd⟩ : ∃ M d, p0 = M ++ [d] := by
      rcases List.eq_nil_or_concat p0 with h | ⟨M, d, h⟩
      · exact absurd h hne
      · exact ⟨M, d, by rw [h, List.concat_eq_append]⟩
    have hd : isWsJS d = false :=
      hp0 d (by rw [hMd]; exact List.mem_append_right M (by simp))
    show rTrim p0 = p0
    rw [hMd]
    exact rTrim_append_last M d hd
  | cons s rest ih =>
    intro p0 _ _ hsegs
    obtain ⟨hs2ne, hs2⟩ := hsegs s (List.mem_cons_self s rest)
    obtain ⟨c2, p2, hp2⟩ : ∃ c2 p2, s.2 = c2 :: p2 := by
      cases h2 : s.2 with
      | nil => exact absurd h2 hs2ne
      | cons c2 p2 => exact ⟨c2, p2, rfl⟩
    obtain ⟨t, ht⟩ : ∃ t, renderDoc s.2 rest = c2 :: t := by
      rw [hp2]; exact renderDoc_cons c2 p2 rest
    have hR := ih s.2 hs2ne hs2 (fun s' hs' => hsegs s' (List.mem_cons_of_mem s hs'))
    show rTrim (p0 ++ s.1 ++ renderDoc s.2 rest) = p0 ++ s.1 ++ renderDoc s.2 rest
    exact rTrim_append_of (p0 ++ s.1) (renderDoc s.2 rest) hR
      (by rw [ht]; exact List.cons_ne_nil c2 t)

theorem trimJS_renderDoc (segs : List (List Char × List Char)) (p0 : List Char)
    (hne : p0 ≠ []) (hp0 : ∀ x ∈ p0, isWsJS x = false)
    (hsegs : ∀ s ∈ segs, s.2 ≠ [] ∧ ∀ x ∈ s.2, isWsJS x = false) :
    trimJS (renderDoc p0 segs) = renderDoc p0 segs := by
  obtain ⟨c0, p0', rfl⟩ : ∃ c0 p0', p0 = c0 :: p0' := by
    cases h0 : p0 with
    | nil => exact absurd h0 hne
    | cons c0 p0' => exact ⟨c0, p0', rfl⟩
  obtain ⟨t, ht⟩ := renderDoc_cons c0 p0' segs
  have hdw : List.dropWhile isWsJS (renderDoc (c0 :: p0') segs)
      = renderDoc (c0 :: p0') segs := by
    rw [ht, List.dropWhile, hp0 c0 (List.mem_cons_self c0 p0')]
  show rTrim (List.dropWhile isWsJS (renderDoc (c0 :: p0') segs)) = _
  rw [hdw]
  exact rTrim_renderDoc segs (c0 :: p0') (List.cons_ne_nil c0 p0') hp0 hsegs

theorem appendTokenAt_fresh : ∀ (msgs : List ChatMessage) (sid tok : String),
    (∀ m ∈ msgs, m.id ≠ sid) → ∀ (t : String) (u : Bool) (n : Nat),
    appendTokenAt (msgs ++ [⟨sid, t, u, n⟩]) sid tok = msgs ++ [⟨sid, t ++ tok, u, n⟩] := by
  intro msgs
  induction msgs with
  | nil =>
    intro sid tok _ t u n
    simp [appendTokenAt]
  | cons m ms ih =>
    intro sid tok h t u n
    have hm : m.id ≠ sid := h m (List.mem_cons_self m ms)
    simp only [List.cons_append, appendTokenAt, if_neg hm, List.append_eq]
    rw [ih sid tok (fun x hx => h x (List.mem_cons_of_mem m hx)) t u n]

theorem streamTokens_fresh : ∀ (tokens : List String) (msgs : List ChatMessage) (sid : String),
    (∀ m ∈ msgs, m.id ≠ sid) → ∀ (t : String) (u : Bool) (n : Nat),
    streamTokens (msgs ++ [⟨sid, t, u, n⟩]) sid tokens
      = msgs ++ [⟨sid, tokens.foldl (fun r s => r ++ s) t, u, n⟩] := by
  intro tokens
  induction tokens with
  | nil => intro msgs sid h t u n; rfl
  | cons tok toks ih =>
    intro msgs sid h t u n
    show streamTokens (appendTokenAt (msgs ++ [⟨sid, t, u, n⟩]) sid tok) sid toks = _
    rw [appendTokenAt_fresh msgs sid tok h t u n]
    exact ih msgs sid h (t ++ tok) u n

theorem createCompletionStep_ok_pos (st : ChatState) (sid : String) (now : Nat)
    (tokens : List String) (finalText : String)
    (h : sendMessageResult finalText ≠ "" ∧ trimStr (sendMessageResult finalText) ≠ "") :
    createCompletionStep st sid now (.ok tokens finalText)
      = { state := { messages := setTextAt (streamTokens
                       (st.messages ++ [⟨sid, "", false, now⟩]) sid tokens) sid
                       (sendMessageResult finalText),
                     error := none, isLoading := false },
          returned := some (sendMessageResult finalText) } := by
  simp only [createCompletionStep]
  rw [if_pos h]

/-! ### Claim theorems -/

/-- **C1.** A user message whose trimmed text case-insensitively equals one of
`hey`, `hello`, `hi`, `sup`, `yo`, `greetings` gets the prompt made of the
system prompt and the bare user line only — independent of the prior message
list — and every other message gets the history-including prompt. -/
theorem greeting_bypasses_history (systemPrompt : String)
    (messages messages' : List ChatMessage) (message : String) :
    (lowerStr (trimStr message) ∈ greetingWords →
      createCompletionPrompt systemPrompt messages message
          = systemPrompt ++ ("\n\nUser: ") ++ message ∧
      createCompletionPrompt systemPrompt messages message
          = createCompletionPrompt systemPrompt messages' message) ∧
    (lowerStr (trimStr message) ∉ greetingWords →
      createCompletionPrompt systemPrompt messages message
          = systemPrompt ++ ("\n\n")
              ++ String.intercalate ("\n") ((messages.drop (messages.length - 4)).map formatTurn)
              ++ ("\nUser: ") ++ message) := by
  constructor
  · intro hm
    have hg : isSimpleGreeting message = true := (isSimpleGreeting_iff message).mpr hm
    rw [createCompletionPrompt, createCompletionPrompt, if_pos hg, if_pos hg]
    exact ⟨rfl, rfl⟩
  · intro hm
    have hg : ¬ isSimpleGreeting message = true :=
      fun hb => hm ((isSimpleGreeting_iff message).mp hb)
    rw [createCompletionPrompt, if_neg hg]

/-- Witness for C1: a concrete greeting (in mixed case, with surrounding
whitespace) bypasses history, and a concrete non-greeting does not. -/
theorem greeting_bypasses_history_w :
    (lowerStr (trimStr (" HeLLo ")) ∈ greetingWords ∧
      createCompletionPrompt ("S") [⟨("i"), ("t"), true, 0⟩] (" HeLLo ")
          = ("S") ++ ("\n\nUser: ") ++ (" HeLLo ")) ∧
    (lowerStr (trimStr ("hullo")) ∉ greetingWords ∧
      createCompletionPrompt ("S") [⟨("i"), ("t"), true, 0⟩] ("hullo")
          = ("S") ++ ("\n\n")
              ++ String.intercalate ("\n")
                  ((([⟨("i"), ("t"), true, 0⟩] : List ChatMessage).drop
                    (([⟨("i"), ("t"), true, 0⟩] : List ChatMessage).length - 4)).map formatTurn)
              ++ ("\nUser: ") ++ ("hullo")) :=
  ⟨⟨by decide,
    ((greeting_bypasses_history ("S") [⟨("i"), ("t"), true, 0⟩]
      [⟨("i"), ("t"), true, 0⟩] (" HeLLo ")).1 (by decide)).1⟩,
   ⟨by decide,
    (greeting_bypasses_history ("S") [⟨("i"), ("t"), true, 0⟩]
      [⟨("i"), ("t"), true, 0⟩] ("hullo")).2 (by decide)⟩⟩

/-- **C4.** For a non-greeting message the assembled prompt contains exactly
the formatted last-at-most-4 suffix of the prior message list, joined by
newlines, after the system prompt and immediately before the new user line. -/
theorem nongreeting_history_last_four (systemPrompt : String)
    (messages : List ChatMessage) (message : String)
    (h : isSimpleGreeting message = false) :
    (messages.drop (messages.length - 4)).length ≤ 4 ∧
    (∃ t, t ++ messages.drop (messages.length - 4) = messages) ∧
    createCompletionPrompt systemPrompt messages message
      = systemPrompt ++ ("\n\n")
          ++ String.intercalate ("\n") ((messages.drop (messages.length - 4)).map formatTurn)
          ++ ("\nUser: ") ++ message := by
  refine ⟨?_, ⟨messages.take (messages.length - 4), List.take_append_drop _ _⟩, ?_⟩
  · simp only [List.length_drop]
    omega
  · rw [createCompletionPrompt, if_neg (by simp [h])]

/-- Witness for C4: with five prior messages, only the last four appear. -/
theorem nongreeting_history_last_four_w :
    createCompletionPrompt ("S")
        [⟨("1"), ("a"), false, 0⟩, ⟨("2"), ("b"), true, 0⟩, ⟨("3"), ("c"), false, 0⟩,
         ⟨("4"), ("d"), true, 0⟩, ⟨("5"), ("e"), false, 0⟩] ("how are you")
      = ("S") ++ ("\n\n")
          ++ String.intercalate ("\n")
              ((([⟨("1"), ("a"), false, 0⟩, ⟨("2"), ("b"), true, 0⟩, ⟨("3"), ("c"), false, 0⟩,
                  ⟨("4"), ("d"), true, 0⟩, ⟨("5"), ("e"), false, 0⟩] : List ChatMessage).drop
                (([⟨("1"), ("a"), false, 0⟩, ⟨("2"), ("b"), true, 0⟩, ⟨("3"), ("c"), false, 0⟩,
                   ⟨("4"), ("d"), true, 0⟩, ⟨("5"), ("e"), false, 0⟩] : List ChatMessage).length - 4)).map
                formatTurn)
          ++ ("\nUser: ") ++ ("how are you") :=
  (nongreeting_history_last_four ("S") _ ("how are you") (by decide)).2.2

/-- **C6.** When the local model file exists but loading it fails, the flow
deletes the local file and then falls through to downloading and loading the
downloaded file (whatever the delete attempt itself does). -/
theorem load_failure_deletes_then_downloads (env : ProvisionEnv) (e uri : String)
    (hex : env.fileExists = true) (hload : env.loadLocalResult = .error e)
    (huri : env.downloadUri = some uri) :
    (downloadModel env).trace
      = [.getInfo, .loadLocal, .deleteLocal, .download, .loadDownloaded] ∧
    (downloadModel env).context
      = (match env.loadDownloadedResult with
         | .ok ctx => some ctx
         | .error _ => none) := by
  rw [downloadModel, if_pos hex, hload]
  cases hres : env.loadDownloadedResult <;>
    simp [downloadAndLoad, huri, hres]

/-- Witness for C6: a concrete environment with an existing but unloadable
file produces the delete-download-load trace. -/
theorem load_failure_deletes_then_downloads_w :
    (downloadModel ⟨true, .error ("corrupt"), true, some ("file:///m.gguf"), .ok 7⟩).trace
      = [.getInfo, .loadLocal, .deleteLocal, .download, .loadDownloaded] :=
  (load_failure_deletes_then_downloads _ ("corrupt") ("file:///m.gguf") rfl rfl rfl).1

/-- **C8.** Both progress callbacks receive the quotient
`totalBytesWritten / totalBytesExpectedToWrite` in a fixed unit:
`modelDownloader.ts` hands over the percentage (50 at 50/100), the app
variant stores the fraction (0.5 at 50/100). -/
theorem download_progress_units :
    (∀ written expected : ℚ,
      modelDownloaderProgressArg written expected = 100 * (written / expected)) ∧
    (∀ written expected : ℚ, appProgressValue written expected = written / expected) ∧
    modelDownloaderProgressArg 50 100 = 50 ∧
    appProgressValue 50 100 = 1 / 2 := by
  refine ⟨fun w t => mul_comm _ _, fun w t => rfl, ?_, ?_⟩
  · norm_num [modelDownloaderProgressArg]
  · norm_num [appProgressValue]

/-- **C10.** `generateId` values built from distinct counter values are
distinct strings, whatever the two clock readings were: the digit segments
contain no underscore, so the id determines the counter. -/
theorem generateId_distinct_counters (now1 c1 now2 c2 : Nat) (h : c1 ≠ c2) :
    generateId now1 c1 ≠ generateId now2 c2 := by
  intro he
  have hd : (['m', 's', 'g', '_'] ++ natDigits now1 ++ '_' :: natDigits c1)
      = (['m', 's', 'g', '_'] ++ natDigits now2 ++ '_' :: natDigits c2) :=
    congrArg String.data he
  simp only [List.cons_append, List.nil_append, List.cons.injEq, true_and] at hd
  have hta := (append_sep_inj (natDigits_ne_underscore now1)
    (natDigits_ne_underscore now2) hd).2
  exact h (by rw [← digitsToNat_natDigits c1, hta, digitsToNat_natDigits])

/-- Witness for C10: two concrete calls with different counters (and different
clock readings) yield different ids. -/
theorem generateId_distinct_counters_w :
    (1 : Nat) ≠ 2 ∧ generateId 1700000000000 1 ≠ generateId 1700000000001 2 :=
  ⟨by decide, generateId_distinct_counters 1700000000000 1 1700000000001 2 (by decide)⟩

/-- **C2 (counterexample).** A think span whose inner content has 201
characters is deleted outright by `cleanResponse`: the output is empty, not
the first 200 characters followed by the ellipsis marker with the tags
stripped. -/
theorem long_think_span_deleted_cex :
    cleanResponse ⟨openThink ++ (List.replicate 201 'a' ++ closeThink)⟩ = ("") ∧
    cleanResponse ⟨openThink ++ (List.replicate 201 'a' ++ closeThink)⟩
      ≠ ⟨List.replicate 200 'a' ++ ['.', '.', '.']⟩ := by
  have hb : '<' ∉ List.replicate 201 'a' := by decide
  have h1 := limitThink_wrapped (List.replicate 201 'a') hb
  have hB : '<' ∉ (if 200 < (List.replicate 201 'a').length then
      (List.replicate 201 'a').take 200 ++ ['.', '.', '.'] else List.replicate 201 'a') := by
    split
    · intro hm
      rcases List.mem_append.mp hm with hm | hm
      · exact hb (List.take_subset 200 _ hm)
      · exact absurd hm (by decide)
    · exact hb
  have h2 := removeThink_wrapped _ hB
  have hmain : cleanResponse ⟨openThink ++ (List.replicate 201 'a' ++ closeThink)⟩ = ("") := by
    show (⟨cleanResponseL (openThink ++ (List.replicate 201 'a' ++ closeThink))⟩ : String) = ("")
    rw [cleanResponseL, h1, h2]
    rfl
  exact ⟨hmain, by rw [hmain]; decide⟩

/-- **C2 (amended).** The truncation pass rewrites an over-long think span to
its first 200 characters plus an ellipsis, still wrapped in the tag — but the
next pass then removes every matched `<think>...</think>` span together with
its content, so nothing of a matched span (truncated or not) reaches the
output. -/
theorem think_span_truncated_then_removed (b : List Char) (hb : '<' ∉ b) :
    limitThink (openThink ++ (b ++ closeThink))
      = openThink
          ++ ((if 200 < b.length then b.take 200 ++ ['.', '.', '.'] else b) ++ closeThink) ∧
    cleanResponse ⟨openThink ++ (b ++ closeThink)⟩ = ("") := by
  refine ⟨limitThink_wrapped b hb, ?_⟩
  have hB : '<' ∉ (if 200 < b.length then b.take 200 ++ ['.', '.', '.'] else b) := by
    split
    · intro hm
      rcases List.mem_append.mp hm with hm | hm
      · exact hb (List.take_subset 200 _ hm)
      · exact absurd hm (by decide)
    · exact hb
  show (⟨cleanResponseL (openThink ++ (b ++ closeThink))⟩ : String) = ("")
  rw [cleanResponseL, limitThink_wrapped b hb, removeThink_wrapped _ hB]
  rfl

/-- Witness for the amended C2, at a 201-character span content. -/
theorem think_span_truncated_then_removed_w :
    '<' ∉ List.replicate 201 'b' ∧
    (limitThink (openThink ++ (List.replicate 201 'b' ++ closeThink))
        = openThink
            ++ ((if 200 < (List.replicate 201 'b').length then
                  (List.replicate 201 'b').take 200 ++ ['.', '.', '.']
                 else List.replicate 201 'b') ++ closeThink) ∧
      cleanResponse ⟨openThink ++ (List.replicate 201 'b' ++ closeThink)⟩ = ("")) :=
  ⟨by decide, think_span_truncated_then_removed (List.replicate 201 'b') (by decide)⟩

/-- **C3 (counterexample).** `cleanResponse` is not idempotent: single-pass
span removal can splice together a new think span, which only a second
application removes. -/
theorem cleanResponse_not_idempotent_cex :
    cleanResponse (cleanResponse ("<th<think>x</think>ink>y</think>"))
      ≠ cleanResponse ("<th<think>x</think>ink>y</think>") := by decide

/-- **C3 (amended).** `cleanResponse` is idempotent on every string containing
neither `<` nor `R` — exactly the inputs on which the token-removal passes
have nothing to match, so that only the whitespace normalization and the trim
act; on other inputs a second application can strictly shrink the result by
removing a span spliced together by the first single pass. -/
theorem cleanResponse_idempotent_plain (s : String)
    (h1 : '<' ∉ s.data) (h2 : 'R' ∉ s.data) :
    cleanResponse (cleanResponse s) = cleanResponse s := by
  have hid : ∀ l : List Char, '<' ∉ l → 'R' ∉ l →
      cleanResponseL l = trimJS (collapseSpaces (collapseNewlines l)) := by
    intro l hlt hR
    rw [cleanResponseL, limitThink_id hlt, removeThink_id hlt, removeRedacted_id hR,
      removeSpecialTok_id hlt, removeEOS_id hlt, removeEndTok_id hlt]
  have hsub : ∀ {x : Char},
      x ∈ trimJS (collapseSpaces (collapseNewlines s.data)) →
      x ∈ s.data ∨ x = '\n' ∨ x = ' ' := by
    intro x hx
    have hx1 := mem_trimJS_sub hx
    rcases mem_collapseSpaces (collapseNewlines s.data).length _ (Nat.le_refl _) hx1
      with hx2 | hx2
    · rcases mem_collapseNewlines s.data.length _ (Nat.le_refl _) hx2 with hx3 | hx3
      · exact Or.inl hx3
      · exact Or.inr (Or.inl hx3)
    · exact Or.inr (Or.inr hx2)
  have ho1 : '<' ∉ trimJS (collapseSpaces (collapseNewlines s.data)) := by
    intro hm
    rcases hsub hm with hx | hx | hx
    · exact h1 hx
    · exact absurd hx (by decide)
    · exact absurd hx (by decide)
  have ho2 : 'R' ∉ trimJS (collapseSpaces (collapseNewlines s.data)) := by
    intro hm
    rcases hsub hm with hx | hx | hx
    · exact h2 hx
    · exact absurd hx (by decide)
    · exact absurd hx (by decide)
  have hNNN : hasNNN (trimJS (collapseSpaces (collapseNewlines s.data))) = false := by
    refine hasNNN_rTrim (hasNNN_dropWhile isWsJS ?_)
    exact collapseSpaces_noNNN (collapseNewlines s.data).length _ (Nat.le_refl _)
      (collapseNewlines_noNNN s.data.length _ (Nat.le_refl _))
  have hnlo := collapseNewlines_id hNNN
  have htab : '\t' ∉ trimJS (collapseSpaces (collapseNewlines s.data)) := by
    intro hm
    exact collapseSpaces_tab (collapseNewlines s.data).length _ (Nat.le_refl _)
      (mem_trimJS_sub hm)
  have hpair : noHWPair (trimJS (collapseSpaces (collapseNewlines s.data))) = true := by
    refine noHWPair_rTrim (noHWPair_dropWhile isWsJS ?_)
    exact collapseSpaces_noHWPair (collapseNewlines s.data).length _ (Nat.le_refl _)
  have hspo := collapseSpaces_id htab hpair
  have htro := trimJS_idem (collapseSpaces (collapseNewlines s.data))
  have houter : cleanResponse s = ⟨trimJS (collapseSpaces (collapseNewlines s.data))⟩ := by
    show (⟨cleanResponseL s.data⟩ : String) = _
    rw [hid s.data h1 h2]
  rw [houter]
  show (⟨cleanResponseL (trimJS (collapseSpaces (collapseNewlines s.data)))⟩ : String) = _
  rw [hid _ ho1 ho2, hnlo, hspo, htro]

/-- Witness for the amended C3, on a concrete `<`- and `R`-free string holding
extra whitespace. -/
theorem cleanResponse_idempotent_plain_w :
    '<' ∉ ("hello  world\n\n\n ok").data ∧ 'R' ∉ ("hello  world\n\n\n ok").data ∧
    cleanResponse (cleanResponse ("hello  world\n\n\n ok"))
      = cleanResponse ("hello  world\n\n\n ok") :=
  ⟨by decide, by decide,
   cleanResponse_idempotent_plain ("hello  world\n\n\n ok") (by decide) (by decide)⟩

/-- **C5.** `cleanResponse` collapses every run of three or more newlines to
exactly two newlines and every nonempty run of horizontal whitespace (spaces
and tabs) to a single space, while leaving intentional double-newline
paragraph breaks unaltered: over a document of nonempty plain-text segments
separated by arbitrarily many such whitespace runs, every run is rewritten to
its collapsed form and the text segments are untouched. -/
theorem cleanup_whitespace_collapse (p0 : List Char) (segs : List (List Char × List Char))
    (hp0ne : p0 ≠ []) (hp0 : ∀ x ∈ p0, plainChar x = true)
    (hsegs : ∀ s ∈ segs, goodRun s.1 ∧ (s.2 ≠ [] ∧ ∀ x ∈ s.2, plainChar x = true)) :
    cleanResponse ⟨renderDoc p0 segs⟩
      = ⟨renderDoc p0 (segs.map (fun s => (collapsedRun s.1, s.2)))⟩ := by
  have hfree1 : '<' ∉ renderDoc p0 segs := by
    intro hm
    rcases mem_renderDoc segs p0 '<' hm with h | ⟨s, hs, h⟩
    · exact (plainChar_props (hp0 _ h)).2.2.1 rfl
    · obtain ⟨hrun, _, hs2⟩ := hsegs s hs
      rcases h with h | h
      · rcases hrun with hpar | ⟨k, _, hnl⟩ | ⟨_, hhw⟩
        · rw [hpar] at h
          exact absurd h (by decide)
        · rw [hnl] at h
          exact absurd (List.eq_of_mem_replicate h) (by decide)
        · exact absurd (hhw _ h) (by decide)
      · exact (plainChar_props (hs2 _ h)).2.2.1 rfl
  have hfree2 : 'R' ∉ renderDoc p0 segs := by
    intro hm
    rcases mem_renderDoc segs p0 'R' hm with h | ⟨s, hs, h⟩
    · exact (plainChar_props (hp0 _ h)).2.2.2.1 rfl
    · obtain ⟨hrun, _, hs2⟩ := hsegs s hs
      rcases h with h | h
      · rcases hrun with hpar | ⟨k, _, hnl⟩ | ⟨_, hhw⟩
        · rw [hpar] at h
          exact absurd h (by decide)
        · rw [hnl] at h
          exact absurd (List.eq_of_mem_replicate h) (by decide)
        · exact absurd (hhw _ h) (by decide)
      · exact (plainChar_props (hs2 _ h)).2.2.2.1 rfl
  have hW : ∀ x ∈ p0, isWsJS x = false := fun x hx => (plainChar_props (hp0 x hx)).1
  have hH : ∀ x ∈ p0, isHW x = false := fun x hx => (plainChar_props (hp0 x hx)).2.1
  have hsegs2 : ∀ s ∈ segs.map (fun s => (nlRun s.1, s.2)),
      (s.1 = ['\n', '\n'] ∨ (s.1 ≠ [] ∧ ∀ x ∈ s.1, isHW x = true)) ∧
      (s.2 ≠ [] ∧ ∀ x ∈ s.2, plainChar x = true) := by
    intro s' hs'
    obtain ⟨s, hs, rfl⟩ := List.mem_map.mp hs'
    obtain ⟨hrun, h2⟩ := hsegs s hs
    refine ⟨?_, h2⟩
    rcases hrun with hpar | ⟨k, hk3, hnl⟩ | ⟨hwne, hhw⟩
    · left
      show nlRun s.1 = _
      rw [hpar]
      decide
    · left
      show nlRun s.1 = _
      rw [hnl]
      have hk0 : k ≠ 0 := by omega
      simp only [nlRun, if_pos (List.mem_replicate.mpr ⟨hk0, rfl⟩)]
    · right
      have hnomem : '\n' ∉ s.1 := fun hm => absurd (hhw '\n' hm) (by decide)
      have hnlr : nlRun s.1 = s.1 := by simp only [nlRun, if_neg hnomem]
      constructor
      · show nlRun s.1 ≠ []
        rw [hnlr]
        exact hwne
      · show ∀ x ∈ nlRun s.1, isHW x = true
        rw [hnlr]
        exact hhw
  have hmapeq : segs.map ((fun s => (spRun s.1, s.2)) ∘ (fun s => (nlRun s.1, s.2)))
      = segs.map (fun s => (collapsedRun s.1, s.2)) := by
    apply List.map_congr_left
    intro s hs
    obtain ⟨hrun, _⟩ := hsegs s hs
    show (spRun (nlRun s.1), s.2) = (collapsedRun s.1, s.2)
    rcases hrun with hpar | ⟨k, hk3, hnl⟩ | ⟨hwne, hhw⟩
    · rw [hpar,
        show spRun (nlRun (['\n', '\n'] : List Char)) = collapsedRun ['\n', '\n'] from
          by decide]
    · have hk0 : k ≠ 0 := by omega
      have hmem : '\n' ∈ List.replicate k '\n' := List.mem_replicate.mpr ⟨hk0, rfl⟩
      have h1 : nlRun (List.replicate k '\n') = ['\n', '\n'] := by
        simp only [nlRun, if_pos hmem]
      have h2 : collapsedRun (List.replicate k '\n') = ['\n', '\n'] := by
        simp only [collapsedRun, if_pos hmem]
      rw [hnl, h1, h2, show spRun (['\n', '\n'] : List Char) = ['\n', '\n'] from by decide]
    · have hnomem : '\n' ∉ s.1 := fun hm => absurd (hhw '\n' hm) (by decide)
      have h1 : nlRun s.1 = s.1 := by simp only [nlRun, if_neg hnomem]
      have h2 : spRun s.1 = [' '] := by simp only [spRun, if_neg hnomem]
      have h3 : collapsedRun s.1 = [' '] := by simp only [collapsedRun, if_neg hnomem]
      rw [h1, h2, h3]
  have hsegs3 : ∀ s ∈ segs.map (fun s => (collapsedRun s.1, s.2)),
      s.2 ≠ [] ∧ ∀ x ∈ s.2, isWsJS x = false := by
    intro s' hs'
    obtain ⟨s, hs, rfl⟩ := List.mem_map.mp hs'
    obtain ⟨_, h2ne, h2pl⟩ := hsegs s hs
    exact ⟨h2ne, fun x hx => (plainChar_props (h2pl x hx)).1⟩
  show (⟨cleanResponseL (renderDoc p0 segs)⟩ : String) = _
  rw [cleanResponseL_eq_ws _ hfree1 hfree2, collapseNewlines_doc segs p0 hW hsegs,
    collapseSpaces_doc (segs.map (fun s => (nlRun s.1, s.2))) p0 hH hsegs2,
    List.map_map, hmapeq, trimJS_renderDoc _ p0 hp0ne hW hsegs3]

/-- Witness for C5 on the document `"a" NNN "b" S-TAB-TAB "c" NN "de"` (a
3-newline run, a space-tab-tab run and a paragraph break): it cleans to
`"a\n\nb c\n\nde"`. -/
theorem cleanup_whitespace_collapse_w :
    cleanResponse ⟨renderDoc (['a']) ([(List.replicate 3 '\n', ['b']),
        ([' ', '\t', '\t'], ['c']), (['\n', '\n'], ['d', 'e'])])⟩
      = ⟨renderDoc (['a']) ([(List.replicate 3 '\n', ['b']),
          ([' ', '\t', '\t'], ['c']), (['\n', '\n'], ['d', 'e'])].map
            (fun s => (collapsedRun s.1, s.2)))⟩ ∧
    renderDoc (['a']) ([(List.replicate 3 '\n', ['b']),
        ([' ', '\t', '\t'], ['c']), (['\n', '\n'], ['d', 'e'])].map
          (fun s => (collapsedRun s.1, s.2)))
      = ['a', '\n', '\n', 'b', ' ', 'c', '\n', '\n', 'd', 'e'] :=
  ⟨cleanup_whitespace_collapse (['a']) ([(List.replicate 3 '\n', ['b']),
      ([' ', '\t', '\t'], ['c']), (['\n', '\n'], ['d', 'e'])]) (by decide) (by decide)
    (by
      intro s hs
      simp only [List.mem_cons, List.not_mem_nil, or_false] at hs
      rcases hs with rfl | rfl | rfl
      · exact ⟨Or.inr (Or.inl ⟨3, by omega, rfl⟩), by decide, by decide⟩
      · exact ⟨Or.inr (Or.inr ⟨by decide, by decide⟩), by decide, by decide⟩
      · exact ⟨Or.inl rfl, by decide, by decide⟩),
   by decide⟩

/-- **C7.** If the native completion call throws, `createCompletion` stores the
stringified error in the error state, returns `null`, and leaves the streaming
message with its accumulated partial text (neither rolled back nor removed);
and when the cleaned final text is empty, the placeholder string is returned
with no error surfaced. -/
theorem completion_error_and_empty_fallback (st : ChatState) (sid : String)
    (now : Nat) (tokens : List String) (e finalText : String)
    (hsid : ∀ m ∈ st.messages, m.id ≠ sid)
    (hclean : cleanResponse finalText = "") :
    (createCompletionStep st sid now (.err tokens e)).state.error = some e ∧
    (createCompletionStep st sid now (.err tokens e)).returned = none ∧
    (createCompletionStep st sid now (.err tokens e)).state.messages
      = st.messages ++ [⟨sid, tokens.foldl (fun r s => r ++ s) (""), false, now⟩] ∧
    (createCompletionStep st sid now (.ok tokens finalText)).returned
      = some ("No response generated") ∧
    (createCompletionStep st sid now (.ok tokens finalText)).state.error = none := by
  have hmsg := streamTokens_fresh tokens st.messages sid hsid ("") false now
  have hres : sendMessageResult finalText = ("No response generated") := by
    show (if cleanResponse finalText = "" then ("No response generated")
      else cleanResponse finalText) = _
    rw [if_pos hclean]
  have hok := createCompletionStep_ok_pos st sid now tokens finalText
    (by rw [hres]; exact ⟨by decide, by decide⟩)
  refine ⟨rfl, rfl, ?_, ?_, ?_⟩
  · show streamTokens (st.messages ++ [⟨sid, "", false, now⟩]) sid tokens = _
    exact hmsg
  · rw [hok, hres]
  · rw [hok]

/-- Witness for C7: two streamed tokens, a thrown error, and a final text that
cleans to empty. -/
theorem completion_error_and_empty_fallback_w :
    cleanResponse ("<|x|>") = "" ∧
    ((createCompletionStep ⟨[], none, false⟩ ("s1") 5
        (.err [("ab"), ("cd")] ("boom"))).state.error = some ("boom") ∧
     (createCompletionStep ⟨[], none, false⟩ ("s1") 5
        (.err [("ab"), ("cd")] ("boom"))).returned = none ∧
     (createCompletionStep ⟨[], none, false⟩ ("s1") 5
        (.err [("ab"), ("cd")] ("boom"))).state.messages
       = [] ++ [⟨("s1"), [("ab"), ("cd")].foldl (fun r s => r ++ s) (""), false, 5⟩] ∧
     (createCompletionStep ⟨[], none, false⟩ ("s1") 5
        (.ok [("ab"), ("cd")] ("<|x|>"))).returned = some ("No response generated") ∧
     (createCompletionStep ⟨[], none, false⟩ ("s1") 5
        (.ok [("ab"), ("cd")] ("<|x|>"))).state.error = none) :=
  ⟨by decide,
   completion_error_and_empty_fallback ⟨[], none, false⟩ ("s1") 5 [("ab"), ("cd")]
     ("boom") ("<|x|>") (fun m hm => absurd hm (List.not_mem_nil m)) (by decide)⟩

set_option maxHeartbeats 1000000 in
/-- **C9.** `sendMessage` never resolves to a blank string: the cleaned result
is replaced by the placeholder when empty and is already trimmed otherwise, so
the `Empty response from AI` branch of `createCompletion` is unreachable — the
`ok` outcome always ends with no error and the cleaned text returned. -/
theorem sendMessage_result_nonblank (finalText : String) :
    sendMessageResult finalText ≠ "" ∧
    trimStr (sendMessageResult finalText) ≠ "" ∧
    ∀ (st : ChatState) (sid : String) (now : Nat) (tokens : List String),
      (createCompletionStep st sid now (.ok tokens finalText)).state.error = none ∧
      (createCompletionStep st sid now (.ok tokens finalText)).returned
        = some (sendMessageResult finalText) := by
  have key : sendMessageResult finalText ≠ "" ∧ trimStr (sendMessageResult finalText) ≠ "" := by
    by_cases hc : cleanResponse finalText = ""
    · have hres : sendMessageResult finalText = ("No response generated") := by
        show (if cleanResponse finalText = "" then ("No response generated")
          else cleanResponse finalText) = _
        rw [if_pos hc]
      rw [hres]
      exact ⟨by decide, by decide⟩
    · have hres : sendMessageResult finalText = cleanResponse finalText := by
        show (if cleanResponse finalText = "" then ("No response generated")
          else cleanResponse finalText) = _
        rw [if_neg hc]
      have htr : trimStr (cleanResponse finalText) = cleanResponse finalText := by
        show (⟨trimJS (cleanResponseL finalText.data)⟩ : String)
          = ⟨cleanResponseL finalText.data⟩
        rw [show cleanResponseL finalText.data = trimJS (collapseSpaces (collapseNewlines
          (removeEndTok (removeEOS (removeSpecialTok (removeRedacted (removeThink
          (limitThink finalText.data)))))))) from rfl, trimJS_idem]
      rw [hres, htr]
      exact ⟨hc, hc⟩
  obtain ⟨h1, h2⟩ := key
  refine ⟨h1, h2, ?_⟩
  intro st sid now tokens
  rw [createCompletionStep_ok_pos st sid now tokens finalText ⟨h1, h2⟩]
  exact ⟨rfl, rfl⟩

/-- Witness for C9 at the empty final text: the placeholder is returned and no
error is set. -/
theorem sendMessage_result_nonblank_w :
    sendMessageResult ("") ≠ "" ∧
    (createCompletionStep ⟨[], none, false⟩ ("s2") 7 (.ok [] (""))).state.error = none :=
  ⟨(sendMessage_result_nonblank ("")).1,
   ((sendMessage_result_nonblank ("")).2.2 ⟨[], none, false⟩ ("s2") 7 []).1⟩

end Mollama
